import Mathlib

/-!
Verification of the cjseq CityJSON / CityJSONSeq library (`src/lib.rs`).

This file gives a shallow embedding, in Lean 4, of the data model and the
split/merge/dedup/renormalize operations of the `cjseq` Rust crate, and proves
(or refutes) the specified properties of those operations.

Modelling conventions, used throughout:
* Rust `Vec<T>` is `List T`; `usize`/`u32` indices are `Nat` (the operations
  under study never exercise integer wrap-around at representable data sizes);
  `i64` vertex coordinates are `Int`; `f64` values that the code only compares,
  copies, multiplies and adds (transform scale/translate, colors, uv
  coordinates) are `ℚ`, which realizes the claims' exact, rounding-free
  reading of the arithmetic.
* `HashMap<K, V>` is an association list holding at most one entry per key;
  `insert` replaces in place or appends, `entry(k).or_insert(v)` appends only
  on a miss.  Iteration over a Rust `HashMap` has an unspecified order; the
  embedding iterates association lists in insertion order, which is one
  admissible order.
* A vertex `Vec<i64>` is a coordinate triple (the operations index positions
  0, 1, 2 of every vertex), and `transform.scale` / `transform.translate` are
  triples likewise.
* A Rust `panic!` / `unwrap` failure / out-of-bounds index is `Option.none`
  (or the dedicated `CjfResult.panic` constructor for `get_cjfeature`).
* Data the operations carry but never inspect (metadata, attributes, flattened
  `other` fields) is kept as an opaque embedded JSON value.
-/

namespace Cjseq

/-- Embedded JSON values (`serde_json::Value`).  Numbers are embedded as
integers: every number the verified operations create or inspect is integral,
and non-integral numbers only ever flow through opaquely. -/
inductive Json where
  | null : Json
  | boolean : Bool → Json
  | num : Int → Json
  | str : String → Json
  | arr : List Json → Json
  | obj : List (String × Json) → Json

/-! ## Id remap tables

`HashMap<usize, usize>` tables mapping old ids to new ids, embedded as
association lists in insertion order. -/

/-- An old-id → new-id remap table (`HashMap<usize, usize>` in the source). -/
abbrev Table := List (Nat × Nat)

/-- Key lookup, `HashMap::get`. -/
def Table.get (t : Table) (k : Nat) : Option Nat :=
  (List.find? (fun p => p.1 == k) t).map Prod.snd

/-- Key insertion, `HashMap::insert`: replace the entry in place on a hit,
append it on a miss. -/
def Table.insert (t : Table) (k v : Nat) : Table :=
  if (Table.get t k).isSome then
    t.map (fun p => if p.1 == k then (k, v) else p)
  else
    t ++ [(k, v)]

/-- The resolve step shared by every renumbering site in `src/lib.rs`
(`update_indices_recursively` lines 803-821, `update_geometry_boundaries`
lines 876-908, `update_material` lines 914-972, the texture-id branch of
`update_texture` lines 991-1003): on a hit return the recorded new id and
leave the table unchanged; on a miss assign `table.len()` as the new id and
record it. -/
def Table.resolve (t : Table) (k : Nat) : Nat × Table :=
  match Table.get t k with
  | some v => (v, t)
  | none => (t.length, t ++ [(k, t.length)])

/-- The resolve step with a scope offset, as in the texture-vertex branch of
`update_texture` (`src/lib.rs` lines 1004-1014) and in the per-depth loops of
`Geometry::update_geometry_boundaries` in `src/cityjson.rs` (lines 240-347):
on a miss assign and record `table.len() + offset`. -/
def Table.resolveOffset (t : Table) (k off : Nat) : Nat × Table :=
  match Table.get t k with
  | some v => (v, t)
  | none => (t.length + off, t ++ [(k, t.length + off)])

/-- The table after resolving one key (dropping the returned id). -/
def Table.extend1 (t : Table) (k : Nat) : Table :=
  (Table.resolve t k).2

/-- The table after resolving a list of keys left to right. -/
def Table.extendList (t : Table) (l : List Nat) : Table :=
  l.foldl Table.extend1 t

/-! ## The boundary model (`NestedArray<T>`, `src/lib.rs` lines 707-835) -/

/-- `NestedArray<T>`: a tagged union of a flat leaf list and a list of
sub-arrays. -/
inductive NestedArray (T : Type) where
  | Indices : List T → NestedArray T
  | Nested : List (NestedArray T) → NestedArray T

/-- `Boundaries` is `NestedArray<u32>`. -/
abbrev Boundaries := NestedArray Nat

/-- `SemanticsValues` and the material/texture value arrays are nested arrays
of nullable indices. -/
abbrev NullableValues := NestedArray (Option Nat)

mutual
/-- The leaf indices of a nested array, in document order. -/
def NestedArray.leaves {T : Type} : NestedArray T → List T
  | .Indices l => l
  | .Nested l => NestedArray.leavesL l

/-- The leaf indices of a list of nested arrays, in document order. -/
def NestedArray.leavesL {T : Type} : List (NestedArray T) → List T
  | [] => []
  | x :: xs => NestedArray.leaves x ++ NestedArray.leavesL xs
end

mutual
/-- Apply a function to every leaf of a nested array. -/
def NestedArray.mapLeaves {T U : Type} (f : T → U) : NestedArray T → NestedArray U
  | .Indices l => .Indices (l.map f)
  | .Nested l => .Nested (NestedArray.mapLeavesL f l)

/-- Apply a function to every leaf of each nested array in a list. -/
def NestedArray.mapLeavesL {T U : Type} (f : T → U) :
    List (NestedArray T) → List (NestedArray U)
  | [] => []
  | x :: xs => NestedArray.mapLeaves f x :: NestedArray.mapLeavesL f xs
end

/-- The leaf loop of `Boundaries::update_indices_recursively` (`src/lib.rs`
lines 805-814): renumber a flat index list through the table, first-seen ids
assigned on a miss. -/
def updateLeafList : List Nat → Table → List Nat × Table
  | [], t => ([], t)
  | i :: rest, t =>
    let p := Table.resolve t i
    let q := updateLeafList rest p.2
    (p.1 :: q.1, q.2)

mutual
/-- `Boundaries::update_indices_recursively` (`src/lib.rs` lines 803-821). -/
def Boundaries.update_indices_recursively : Boundaries → Table → Boundaries × Table
  | .Indices arr, t =>
    let p := updateLeafList arr t
    (.Indices p.1, p.2)
  | .Nested nested, t =>
    let p := Boundaries.updateIndicesList nested t
    (.Nested p.1, p.2)

/-- The recursion of `update_indices_recursively` over the sub-array list. -/
def Boundaries.updateIndicesList : List Boundaries → Table → List Boundaries × Table
  | [], t => ([], t)
  | x :: xs, t =>
    let p := Boundaries.update_indices_recursively x t
    let q := Boundaries.updateIndicesList xs p.2
    (p.1 :: q.1, q.2)
end

mutual
/-- `Boundaries::offset_geometry_boundaries` (`src/lib.rs` lines 822-835):
add a constant to every leaf index. -/
def Boundaries.offset_geometry_boundaries : Boundaries → Nat → Boundaries
  | .Indices indices, off => .Indices (indices.map (fun i => i + off))
  | .Nested nested, off => .Nested (Boundaries.offsetList nested off)

/-- The recursion of `offset_geometry_boundaries` over the sub-array list. -/
def Boundaries.offsetList : List Boundaries → Nat → List Boundaries
  | [], _ => []
  | x :: xs, off =>
    Boundaries.offset_geometry_boundaries x off :: Boundaries.offsetList xs off
end

/-! ## Appearance store (`src/lib.rs` lines 1199-1433) -/

/-- `TextFormat` (`src/lib.rs` lines 1272-1283); the default is `Jpg`. -/
inductive TextFormat where
  | Png : TextFormat
  | Jpg : TextFormat
deriving DecidableEq

/-- `WrapMode` (`src/lib.rs` lines 1285-1293). -/
inductive WrapMode where
  | NoneMode : WrapMode
  | Wrap : WrapMode
  | Mirror : WrapMode
  | Clamp : WrapMode
  | Border : WrapMode
deriving DecidableEq

/-- `TextType` (`src/lib.rs` lines 1295-1301). -/
inductive TextType where
  | Unknown : TextType
  | Specific : TextType
  | Typical : TextType
deriving DecidableEq

/-- `MaterialObject` (`src/lib.rs` lines 1203-1220).  Color components and
scalar coefficients are `f64` in the source, embedded over `ℚ`. -/
structure MaterialObject where
  name : String
  ambient_intensity : Option ℚ := none
  diffuse_color : Option (ℚ × ℚ × ℚ) := none
  emissive_color : Option (ℚ × ℚ × ℚ) := none
  specular_color : Option (ℚ × ℚ × ℚ) := none
  shininess : Option ℚ := none
  transparency : Option ℚ := none
  is_smooth : Option Bool := none
deriving DecidableEq

/-- `Default::default()` for `MaterialObject` (all-`None`, empty name). -/
def MaterialObject.default : MaterialObject := { name := "" }

/-- `TextureObject` (`src/lib.rs` lines 1303-1314). -/
structure TextureObject where
  texture_format : TextFormat := .Jpg
  image : String
  wrap_mode : Option WrapMode := none
  texture_type : Option TextType := none
  border_color : Option (ℚ × ℚ × ℚ × ℚ) := none
deriving DecidableEq

/-- `Default::default()` for `TextureObject` (`Jpg`, empty image). -/
def TextureObject.default : TextureObject := { image := "" }

/-- Rust `(0.0..=1.0).contains(&v)`. -/
def inUnit (v : ℚ) : Prop := 0 ≤ v ∧ v ≤ 1

instance (v : ℚ) : Decidable (inUnit v) := by unfold inUnit; infer_instance

/-- One early-return range check of the `Validate` impls (`src/lib.rs` lines
1222-1270, 1316-1330): an absent field passes, a present field failing the
range predicate returns the field's `CjseqError::InvalidValue` (embedded as
the field name), otherwise control falls through to the next check. -/
def checkOpt {α : Type} (field : String) (p : α → Prop) [DecidablePred p]
    (o : Option α) (next : Except String Unit) : Except String Unit :=
  match o with
  | some v => if ¬ p v then .error field else next
  | none => next

/-- Membership of an rgb triple in `[0.0, 1.0]`, component-wise (the source
loops over the three components of a color). -/
def rgbInUnit (c : ℚ × ℚ × ℚ) : Prop := inUnit c.1 ∧ inUnit c.2.1 ∧ inUnit c.2.2

instance (c : ℚ × ℚ × ℚ) : Decidable (rgbInUnit c) := by unfold rgbInUnit; infer_instance

/-- Membership of an rgba quadruple in `[0.0, 1.0]`, component-wise. -/
def rgbaInUnit (c : ℚ × ℚ × ℚ × ℚ) : Prop :=
  inUnit c.1 ∧ inUnit c.2.1 ∧ inUnit c.2.2.1 ∧ inUnit c.2.2.2

instance (c : ℚ × ℚ × ℚ × ℚ) : Decidable (rgbaInUnit c) := by
  unfold rgbaInUnit; infer_instance

/-- `impl Validate for MaterialObject` (`src/lib.rs` lines 1222-1270): `Ok` iff
every present field among the six checked ones lies inside `[0.0, 1.0]`
component-wise; the checks run in source order and return the first violating
field's error. -/
def MaterialObject.validate (m : MaterialObject) : Except String Unit :=
  checkOpt "ambient_intensity" inUnit m.ambient_intensity
    (checkOpt "diffuse_color" rgbInUnit m.diffuse_color
      (checkOpt "emissive_color" rgbInUnit m.emissive_color
        (checkOpt "specular_color" rgbInUnit m.specular_color
          (checkOpt "shininess" inUnit m.shininess
            (checkOpt "transparency" inUnit m.transparency (.ok ()))))))

/-- `impl Validate for TextureObject` (`src/lib.rs` lines 1316-1330): `Ok` iff
every component of a present border color lies inside `[0.0, 1.0]`. -/
def TextureObject.validate (t : TextureObject) : Except String Unit :=
  checkOpt "border_color" rgbaInUnit t.border_color (.ok ())

/-- `Appearance` (`src/lib.rs` lines 1349-1364); uv coordinates are `[f64; 2]`
pairs. -/
structure Appearance where
  materials : Option (List MaterialObject) := none
  textures : Option (List TextureObject) := none
  vertices_texture : Option (List (ℚ × ℚ)) := none
  default_theme_texture : Option String := none
  default_theme_material : Option String := none
deriving DecidableEq

/-- `Appearance::new` (`src/lib.rs` lines 1367-1375). -/
def Appearance.new : Appearance := {}

/-- `Appearance::add_material` (`src/lib.rs` lines 1377-1398): an invalid
material is a `panic!` (embedded as `none`); otherwise dedup on equality of
names (first position wins) and append on a miss, returning the index. -/
def Appearance.add_material (a : Appearance) (value : MaterialObject) :
    Option (Appearance × Nat) :=
  match value.validate with
  | .error _ => none
  | .ok _ =>
    match a.materials with
    | some x =>
      match x.findIdx? (fun e => e.name == value.name) with
      | some y => some (a, y)
      | none => some ({ a with materials := some (x ++ [value]) }, x.length)
    | none => some ({ a with materials := some [value] }, 0)

/-- `Appearance::add_texture` (`src/lib.rs` lines 1400-1421): an invalid
texture is a `panic!`; otherwise dedup on equality of image paths. -/
def Appearance.add_texture (a : Appearance) (value : TextureObject) :
    Option (Appearance × Nat) :=
  match value.validate with
  | .error _ => none
  | .ok _ =>
    match a.textures with
    | some x =>
      match x.findIdx? (fun e => e.image == value.image) with
      | some y => some (a, y)
      | none => some ({ a with textures := some (x ++ [value]) }, x.length)
    | none => some ({ a with textures := some [value] }, 0)

/-- `Appearance::add_vertices_texture` (`src/lib.rs` lines 1423-1432): append
the uv pairs. -/
def Appearance.add_vertices_texture (a : Appearance) (vs : List (ℚ × ℚ)) :
    Appearance :=
  match a.vertices_texture with
  | some x => { a with vertices_texture := some (x ++ vs) }
  | none => { a with vertices_texture := some vs }

/-! ## Geometry (`src/lib.rs` lines 838-1039) -/

/-- `GeometryType` (`src/lib.rs` lines 607-617). -/
inductive GeometryType where
  | MultiPoint : GeometryType
  | MultiLineString : GeometryType
  | MultiSurface : GeometryType
  | CompositeSurface : GeometryType
  | Solid : GeometryType
  | MultiSolid : GeometryType
  | CompositeSolid : GeometryType
  | GeometryInstance : GeometryType
deriving DecidableEq

/-- `SemanticsSurface` (`src/lib.rs` lines 838-848). -/
structure SemanticsSurface where
  thetype : String
  parent : Option Nat := none
  children : Option (List Nat) := none
  other : Json := .null

/-- `Semantics` (`src/lib.rs` lines 850-854). -/
structure Semantics where
  values : NullableValues
  surfaces : List SemanticsSurface

/-- `MaterialReference` (`src/lib.rs` lines 1334-1340): either a nested value
array or a single scalar value. -/
structure MaterialReference where
  values : Option NullableValues := none
  value : Option Nat := none

/-- `TextureReference` (`src/lib.rs` lines 1344-1347). -/
structure TextureReference where
  values : NullableValues

/-- `Geometry` (`src/lib.rs` lines 856-874).  The per-theme material and
texture maps are association lists. -/
structure Geometry where
  thetype : GeometryType
  lod : Option String := none
  boundaries : Boundaries
  semantics : Option Semantics := none
  material : Option (List (String × MaterialReference)) := none
  texture : Option (List (String × TextureReference)) := none
  template : Option Nat := none
  transformation_matrix : Option (List ℚ) := none

/-- The per-sub-array loop of `Geometry::update_geometry_boundaries`
(`src/lib.rs` lines 888-905): a flat sub-array gets the inline resolve loop,
a deeper one is sent to `update_indices_recursively`. -/
def Geometry.updateSub : Boundaries → Table → Boundaries × Table
  | .Indices r, t =>
    let p := updateLeafList r t
    (.Indices p.1, p.2)
  | .Nested inner, t => Boundaries.update_indices_recursively (.Nested inner) t

/-- The loop of `Geometry.updateSub` over the sub-array list. -/
def Geometry.updateSubList : List Boundaries → Table → List Boundaries × Table
  | [], t => ([], t)
  | x :: xs, t =>
    let p := Geometry.updateSub x t
    let q := Geometry.updateSubList xs p.2
    (p.1 :: q.1, q.2)

/-- `Geometry::update_geometry_boundaries` (`src/lib.rs` lines 876-908) on the
boundary value.  The source unrolls the first two levels of
`update_indices_recursively` by hand; each unrolled branch is the identical
resolve loop. -/
def Geometry.updateBoundariesVal : Boundaries → Table → Boundaries × Table
  | .Indices indices, t =>
    let p := updateLeafList indices t
    (.Indices p.1, p.2)
  | .Nested nested, t =>
    let p := Geometry.updateSubList nested t
    (.Nested p.1, p.2)

/-- `Geometry::update_geometry_boundaries` as the self-mutating method. -/
def Geometry.update_geometry_boundaries (g : Geometry) (t : Table) :
    Geometry × Table :=
  let p := Geometry.updateBoundariesVal g.boundaries t
  ({ g with boundaries := p.1 }, p.2)

/-- `Geometry::offset_geometry_boundaries` (`src/lib.rs` lines 910-912). -/
def Geometry.offset_geometry_boundaries (g : Geometry) (off : Nat) : Geometry :=
  { g with boundaries := g.boundaries.offset_geometry_boundaries off }

/-- The leaf loop of the `update_indices` helper inside
`Geometry::update_material` (`src/lib.rs` lines 940-955): only present (non
`null`) leaves are resolved. -/
def updateNullableLeafList : List (Option Nat) → Table → List (Option Nat) × Table
  | [], t => ([], t)
  | none :: rest, t =>
    let q := updateNullableLeafList rest t
    (none :: q.1, q.2)
  | some i :: rest, t =>
    let p := Table.resolve t i
    let q := updateNullableLeafList rest p.2
    (some p.1 :: q.1, q.2)

mutual
/-- The `update_indices` helper inside `Geometry::update_material`
(`src/lib.rs` lines 936-963). -/
def updateNullable : NullableValues → Table → NullableValues × Table
  | .Indices indices, t =>
    let p := updateNullableLeafList indices t
    (.Indices p.1, p.2)
  | .Nested nested, t =>
    let p := updateNullableList nested t
    (.Nested p.1, p.2)

/-- The recursion of `updateNullable` over the sub-array list. -/
def updateNullableList : List NullableValues → Table → List NullableValues × Table
  | [], t => ([], t)
  | x :: xs, t =>
    let p := updateNullable x t
    let q := updateNullableList xs p.2
    (p.1 :: q.1, q.2)
end

/-- The per-reference body of `Geometry::update_material` (`src/lib.rs` lines
917-966): a scalar `value` is resolved directly, otherwise a present `values`
array is renumbered leaf-wise. -/
def MaterialReference.update (mat : MaterialReference) (t : Table) :
    MaterialReference × Table :=
  match mat.value with
  | some thevalue =>
    let p := Table.resolve t thevalue
    ({ mat with value := some p.1 }, p.2)
  | none =>
    match mat.values with
    | some values =>
      let p := updateNullable values t
      ({ mat with values := some p.1 }, p.2)
    | none => (mat, t)

/-- The loop of `Geometry::update_material` over the per-theme map. -/
def updateMaterialMap : List (String × MaterialReference) → Table →
    List (String × MaterialReference) × Table
  | [], t => ([], t)
  | (key, mat) :: rest, t =>
    let p := MaterialReference.update mat t
    let q := updateMaterialMap rest p.2
    ((key, p.1) :: q.1, q.2)

/-- `Geometry::update_material` (`src/lib.rs` lines 914-972). -/
def Geometry.update_material (g : Geometry) (t : Table) : Geometry × Table :=
  match g.material with
  | some x =>
    let p := updateMaterialMap x t
    ({ g with material := some p.1 }, p.2)
  | none => (g, t)

/-- The leaf loop of `update_texture_indices` inside `Geometry::update_texture`
(`src/lib.rs` lines 991-1017): position 0 of a leaf ring is a texture id and
resolves through the texture table without the offset; later positions are uv
indices and resolve through the texture-vertex table with the offset. -/
def updateTextureLeafList (l : List (Option Nat)) (tT tV : Table) (off : Nat)
    (i : Nat) : List (Option Nat) × Table × Table :=
  match l with
  | [] => ([], tT, tV)
  | none :: rest =>
    let q := updateTextureLeafList rest tT tV off (i + 1)
    (none :: q.1, q.2)
  | some old :: rest =>
    if i == 0 then
      let p := Table.resolve tT old
      let q := updateTextureLeafList rest p.2 tV off (i + 1)
      (some p.1 :: q.1, q.2)
    else
      let p := Table.resolveOffset tV old off
      let q := updateTextureLeafList rest tT p.2 off (i + 1)
      (some p.1 :: q.1, q.2)

mutual
/-- The `update_texture_indices` helper inside `Geometry::update_texture`
(`src/lib.rs` lines 983-1031). -/
def updateTextureValues (a : NullableValues) (tT tV : Table) (off : Nat) :
    NullableValues × Table × Table :=
  match a with
  | .Indices indices =>
    let p := updateTextureLeafList indices tT tV off 0
    (.Indices p.1, p.2)
  | .Nested nested =>
    let p := updateTextureValuesList nested tT tV off
    (.Nested p.1, p.2)

/-- The recursion of `updateTextureValues` over the sub-array list. -/
def updateTextureValuesList (l : List NullableValues) (tT tV : Table)
    (off : Nat) : List NullableValues × Table × Table :=
  match l with
  | [] => ([], tT, tV)
  | x :: xs =>
    let p := updateTextureValues x tT tV off
    let q := updateTextureValuesList xs p.2.1 p.2.2 off
    (p.1 :: q.1, q.2)
end

/-- The loop of `Geometry::update_texture` over the per-theme map. -/
def updateTextureMap (l : List (String × TextureReference)) (tT tV : Table)
    (off : Nat) : List (String × TextureReference) × Table × Table :=
  match l with
  | [] => ([], tT, tV)
  | (key, tex) :: rest =>
    let p := updateTextureValues tex.values tT tV off
    let q := updateTextureMap rest p.2.1 p.2.2 off
    ((key, ⟨p.1⟩) :: q.1, q.2)

/-- `Geometry::update_texture` (`src/lib.rs` lines 973-1038). -/
def Geometry.update_texture (g : Geometry) (tT tV : Table) (off : Nat) :
    Geometry × Table × Table :=
  match g.texture with
  | some x =>
    let p := updateTextureMap x tT tV off
    ({ g with texture := some p.1 }, p.2)
  | none => (g, tT, tV)

/-! ## City objects, documents and features (`src/lib.rs` lines 71-513) -/

/-- `CityObject` (`src/lib.rs` lines 515-534). -/
structure CityObject where
  thetype : String
  geographical_extent : Option (List ℚ) := none
  attributes : Option Json := none
  geometry : Option (List Geometry) := none
  children : Option (List String) := none
  children_roles : Option (List String) := none
  parents : Option (List String) := none
  other : Json := .null

/-- `CityObject::is_toplevel` (`src/lib.rs` lines 581-592): top-level iff the
parent list is absent or empty. -/
def CityObject.is_toplevel (co : CityObject) : Bool :=
  match co.parents with
  | some x => x.isEmpty
  | none => true

/-- `CityObject::get_children_keys` (`src/lib.rs` lines 593-604). -/
def CityObject.get_children_keys (co : CityObject) : List String :=
  match co.children with
  | some x => x
  | none => []

/-- The `CityObjects` map (`HashMap<String, CityObject>`), embedded as an
association list in insertion order. -/
abbrev CoMap := List (String × CityObject)

/-- Map lookup, `HashMap::get`. -/
def CoMap.get (m : CoMap) (k : String) : Option CityObject :=
  (List.find? (fun p => p.1 == k) m).map Prod.snd

/-- Map insertion, `HashMap::insert`: replace in place on a hit, append on a
miss. -/
def CoMap.insert (m : CoMap) (k : String) (v : CityObject) : CoMap :=
  if (CoMap.get m k).isSome then
    m.map (fun p => if p.1 == k then (k, v) else p)
  else
    m ++ [(k, v)]

/-- A vertex, `Vec<i64>` with positions 0-2 accessed, as an `Int` triple. -/
abbrev Vertex := Int × Int × Int

/-- `Transform` (`src/lib.rs` lines 1041-1053): `scale[3]` and `translate[3]`
as rational triples. -/
structure Transform where
  scale : ℚ × ℚ × ℚ
  translate : ℚ × ℚ × ℚ

/-- `Transform::new`: unit scale, zero translation. -/
def Transform.new : Transform :=
  { scale := (1, 1, 1), translate := (0, 0, 0) }

/-- `Extension` (`src/lib.rs` lines 1435-1439). -/
structure Extension where
  url : String
  version : String

/-- `GeometryTemplates` (`src/lib.rs` lines 1192-1197). -/
structure GeometryTemplates where
  templates : List Geometry
  vertices_templates : List (ℚ × ℚ × ℚ)

/-- `CityJSON` (`src/lib.rs` lines 71-93).  The `Metadata` block is carried
opaquely (no verified operation reads into it). -/
structure CityJSON where
  thetype : String
  version : String
  transform : Transform
  city_objects : CoMap
  vertices : List Vertex
  metadata : Option Json := none
  appearance : Option Appearance := none
  geometry_templates : Option GeometryTemplates := none
  extensions : Option (List (String × Extension)) := none
  other : Json := .null
  sorted_ids : List String := []

/-- `CityJSONFeature` (`src/lib.rs` lines 468-480). -/
structure CityJSONFeature where
  thetype : String
  id : String
  city_objects : CoMap
  vertices : List Vertex
  appearance : Option Appearance := none
  extensions : Option (List (String × Extension)) := none

/-- `CityJSONFeature::new` (`src/lib.rs` lines 482-493). -/
def CityJSONFeature.new : CityJSONFeature :=
  { thetype := "CityJSONFeature", id := "", city_objects := [], vertices := [] }

/-- `CityJSONFeature::add_co` (`src/lib.rs` lines 498-500). -/
def CityJSONFeature.add_co (cjf : CityJSONFeature) (id : String)
    (co : CityObject) : CityJSONFeature :=
  { cjf with city_objects := CoMap.insert cjf.city_objects id co }

/-- `CityJSON::add_co` (`src/lib.rs` lines 426-428). -/
def CityJSON.add_co (self : CityJSON) (id : String) (co : CityObject) :
    CityJSON :=
  { self with city_objects := CoMap.insert self.city_objects id co }

/-- `CityJSON::add_vertices_texture` (`src/lib.rs` lines 432-441). -/
def CityJSON.add_vertices_texture (self : CityJSON) (vs : List (ℚ × ℚ)) :
    CityJSON :=
  match self.appearance with
  | some x => { self with appearance := some (x.add_vertices_texture vs) }
  | none => { self with appearance := some (Appearance.new.add_vertices_texture vs) }

/-- `CityJSON::add_material` (`src/lib.rs` lines 442-453); `none` models the
validation `panic!` inside `Appearance::add_material`. -/
def CityJSON.add_material (self : CityJSON) (jm : MaterialObject) :
    Option (CityJSON × Nat) :=
  match self.appearance with
  | some x =>
    (x.add_material jm).map (fun p => ({ self with appearance := some p.1 }, p.2))
  | none =>
    (Appearance.new.add_material jm).map
      (fun p => ({ self with appearance := some p.1 }, p.2))

/-- `CityJSON::add_texture` (`src/lib.rs` lines 454-465). -/
def CityJSON.add_texture (self : CityJSON) (jm : TextureObject) :
    Option (CityJSON × Nat) :=
  match self.appearance with
  | some x =>
    (x.add_texture jm).map (fun p => ({ self with appearance := some p.1 }, p.2))
  | none =>
    (Appearance.new.add_texture jm).map
      (fun p => ({ self with appearance := some p.1 }, p.2))

/-! ## Split engine: `get_metadata` and `get_cjfeature` -/

/-- Writing `original[old]` at position `new` of the accumulator, as in the
slice loops of `get_cjfeature` (`src/lib.rs` lines 249-291): an out-of-range
index on either side is a Rust index `panic!`, embedded as `none`. -/
def sliceFill {α : Type} (tbl : Table) (src : List α) (acc : List α) :
    Option (List α) :=
  match tbl with
  | [] => some acc
  | (old, new) :: rest =>
    match src[old]? with
    | none => none
    | some v => if new < acc.length then sliceFill rest src (acc.set new v) else none

/-- A slice loop of `get_cjfeature` / `get_metadata`: resize the target to the
table size with a default element, then place `original[old]` at each recorded
`new` position. -/
def sliceByTable {α : Type} (tbl : Table) (src : List α) (dflt : α) :
    Option (List α) :=
  sliceFill tbl src (List.replicate tbl.length dflt)

/-- The four per-feature remap tables of `get_cjfeature` (`src/lib.rs` lines
216-219), all starting empty. -/
structure SplitTables where
  g_vi_oldnew : Table := []
  m_oldnew : Table := []
  t_oldnew : Table := []
  t_v_oldnew : Table := []

/-- The per-geometry loop of `get_cjfeature` (`src/lib.rs` lines 220-229 and
237-246): renumber boundaries, then material references, then texture
references (texture-vertex offset 0). -/
def updateGeomList : List Geometry → SplitTables → List Geometry × SplitTables
  | [], tb => ([], tb)
  | g :: rest, tb =>
    let p1 := g.update_geometry_boundaries tb.g_vi_oldnew
    let p2 := p1.1.update_material tb.m_oldnew
    let p3 := p2.1.update_texture tb.t_oldnew tb.t_v_oldnew 0
    let q := updateGeomList rest
      { g_vi_oldnew := p1.2, m_oldnew := p2.2, t_oldnew := p3.2.1,
        t_v_oldnew := p3.2.2 }
    (p3.1 :: q.1, q.2)

/-- One object's renumbering step in `get_cjfeature`: update its geometry list
(if any) through the shared tables. -/
def splitUpdateCo (co : CityObject) (tb : SplitTables) :
    CityObject × SplitTables :=
  match co.geometry with
  | some x =>
    let q := updateGeomList x tb
    ({ co with geometry := some q.1 }, q.2)
  | none => (co, tb)

/-- The children loop of `get_cjfeature` (`src/lib.rs` lines 234-248): each
direct child is looked up with `.unwrap()` (a missing child is a `panic!`),
renumbered through the same tables, and added to the feature map. -/
def splitChildren (self : CityJSON) : List String → CoMap → SplitTables →
    Option (CoMap × SplitTables)
  | [], acc, tb => some (acc, tb)
  | childkey :: rest, acc, tb =>
    match CoMap.get self.city_objects childkey with
    | none => none
    | some coc =>
      let p := splitUpdateCo coc tb
      splitChildren self rest (CoMap.insert acc childkey p.1) p.2

/-- The appearance slice of `get_cjfeature` (`src/lib.rs` lines 257-291) and
`get_metadata` (lines 163-197): copy the default themes and slice the
material, texture and texture-vertex arrays through the respective tables. -/
def sliceAppearance (a : Appearance) (m_oldnew t_oldnew t_v_oldnew : Table) :
    Option Appearance := do
  let base : Appearance :=
    { Appearance.new with
      default_theme_material := a.default_theme_material,
      default_theme_texture := a.default_theme_texture }
  let withMats : Appearance ←
    match a.materials with
    | some am =>
      (sliceByTable m_oldnew am MaterialObject.default).map
        (fun l => { base with materials := some l })
    | none => some base
  let withTexs : Appearance ←
    match a.textures with
    | some at_ =>
      (sliceByTable t_oldnew at_ TextureObject.default).map
        (fun l => { withMats with textures := some l })
    | none => some withMats
  match a.vertices_texture with
  | some atv =>
    (sliceByTable t_v_oldnew atv ((0 : ℚ), (0 : ℚ))).map
      (fun l => { withTexs with vertices_texture := some l })
  | none => some withTexs

/-- The outcome of `CityJSON::get_cjfeature`: an `Option` miss (`None` in the
source), a runtime `panic!`, or a produced feature. -/
inductive CjfResult where
  | panic : CjfResult
  | missing : CjfResult
  | feature : CityJSONFeature → CjfResult

/-- `CityJSON::get_cjfeature` (`src/lib.rs` lines 203-293).  The borrow is
immutable (`&self`), so the document itself is never modified. -/
def CityJSON.get_cjfeature (self : CityJSON) (i : Nat) : CjfResult :=
  match self.sorted_ids[i]? with
  | none => .missing
  | some theid =>
    match CoMap.get self.city_objects theid with
    | none => .missing
    | some co =>
      let top := splitUpdateCo co {}
      let cjf1 := (CityJSONFeature.new.add_co theid top.1)
      let cjf2 := { cjf1 with id := theid }
      match splitChildren self co.get_children_keys cjf2.city_objects top.2 with
      | none => .panic
      | some (comap, tb) =>
        match sliceByTable tb.g_vi_oldnew self.vertices ((0 : Int), (0 : Int), (0 : Int)) with
        | none => .panic
        | some verts =>
          match self.appearance with
          | none =>
            .feature { cjf2 with city_objects := comap, vertices := verts }
          | some a =>
            match sliceAppearance a tb.m_oldnew tb.t_oldnew tb.t_v_oldnew with
            | none => .panic
            | some acjf =>
              .feature
                { cjf2 with
                  city_objects := comap, vertices := verts,
                  appearance := some acjf }

/-- `CityJSON::get_metadata` (`src/lib.rs` lines 134-202): the header document
with cleared `CityObjects` and vertices.  When geometry templates exist their
material/texture references are renumbered on a discarded clone (`gts2` is
never written back) and the appearance is sliced through those tables. -/
def CityJSON.get_metadata (self : CityJSON) : Option CityJSON :=
  let cj0 : CityJSON :=
    { thetype := self.thetype, version := self.version,
      transform := self.transform, metadata := self.metadata,
      city_objects := [], vertices := [], appearance := none,
      geometry_templates := self.geometry_templates, other := self.other,
      extensions := self.extensions, sorted_ids := [] }
  match self.geometry_templates with
  | some x =>
    let tb := updateGeomList x.templates {}
    match self.appearance with
    | some a =>
      match sliceAppearance a tb.2.m_oldnew tb.2.t_oldnew tb.2.t_v_oldnew with
      | none => none
      | some acjf => some { cj0 with appearance := some acjf }
    | none => some cj0
  | none => some cj0

/-! ## Merge engine: `add_cjfeature` -/

/-- The three appearance remap tables of `add_cjfeature` (`src/lib.rs` lines
295-297). -/
structure MergeTables where
  m_oldnew : Table := []
  t_oldnew : Table := []
  t_v_oldnew : Table := []

/-- The loop `for (i, m) in cjf_mat.iter().enumerate()` of `add_cjfeature`
(`src/lib.rs` lines 302-304): insert each feature material into the
accumulating document (content dedup by name) and record
`feature index → returned document index`. -/
def addMaterialsLoop : CityJSON → List MaterialObject → Nat → Table →
    Option (CityJSON × Table)
  | doc, [], _, tbl => some (doc, tbl)
  | doc, m :: rest, i, tbl =>
    (doc.add_material m).bind
      (fun p => addMaterialsLoop p.1 rest (i + 1) (Table.insert tbl i p.2))

/-- The loop `for (i, m) in cjf_tex.iter().enumerate()` of `add_cjfeature`
(`src/lib.rs` lines 307-309). -/
def addTexturesLoop : CityJSON → List TextureObject → Nat → Table →
    Option (CityJSON × Table)
  | doc, [], _, tbl => some (doc, tbl)
  | doc, m :: rest, i, tbl =>
    (doc.add_texture m).bind
      (fun p => addTexturesLoop p.1 rest (i + 1) (Table.insert tbl i p.2))

/-- The per-geometry loop of `add_cjfeature` (`src/lib.rs` lines 319-328):
offset the boundaries by the document's pre-append vertex count, then renumber
material and texture references through the merge tables. -/
def mergeGeomList (gs : List Geometry) (tb : MergeTables)
    (g_offset t_offset : Nat) : List Geometry × MergeTables :=
  match gs with
  | [] => ([], tb)
  | g :: rest =>
    let g1 := g.offset_geometry_boundaries g_offset
    let p2 := g1.update_material tb.m_oldnew
    let p3 := p2.1.update_texture tb.t_oldnew tb.t_v_oldnew t_offset
    let q := mergeGeomList rest
      { m_oldnew := p2.2, t_oldnew := p3.2.1, t_v_oldnew := p3.2.2 }
      g_offset t_offset
    (p3.1 :: q.1, q.2)

/-- The object loop of `add_cjfeature` (`src/lib.rs` lines 317-332): renumber
each feature object's geometry and add the object into the document map. -/
def mergeCoList (doc : CityJSON) (cos : CoMap) (tb : MergeTables)
    (g_offset t_offset : Nat) : CityJSON × MergeTables :=
  match cos with
  | [] => (doc, tb)
  | (key, co) :: rest =>
    let p : CityObject × MergeTables :=
      match co.geometry with
      | some geoms =>
        let q := mergeGeomList geoms tb g_offset t_offset
        ({ co with geometry := some q.1 }, q.2)
      | none => (co, tb)
    mergeCoList (doc.add_co key p.1) rest p.2 g_offset t_offset

/-- The body of `add_cjfeature`, with the three remap tables taken as inputs
and returned, so that both the source's per-call-fresh instantiation and the
spec's persisted-tables reading can be expressed over the same body.
Mirrors `src/lib.rs` lines 298-336: record `g_offset` (the pre-append vertex
count); insert appearance entries, recording the remaps and setting
`t_offset` to the *feature's own* texture-vertex count; renumber and add every
object; append the feature's vertices; push the feature id. -/
def addCjfeatureCore (self : CityJSON) (cjf : CityJSONFeature)
    (tb0 : MergeTables) : Option (CityJSON × MergeTables) :=
  let g_offset := self.vertices.length
  let step1 : Option (CityJSON × MergeTables × Nat) :=
    match cjf.appearance with
    | none => some (self, tb0, 0)
    | some app =>
      match (match app.materials with
             | some ms => addMaterialsLoop self ms 0 tb0.m_oldnew
             | none => some (self, tb0.m_oldnew)) with
      | none => none
      | some p1 =>
        match (match app.textures with
               | some ts => addTexturesLoop p1.1 ts 0 tb0.t_oldnew
               | none => some (p1.1, tb0.t_oldnew)) with
        | none => none
        | some p2 =>
          match app.vertices_texture with
          | some vt =>
            some (p2.1.add_vertices_texture vt,
              { m_oldnew := p1.2, t_oldnew := p2.2,
                t_v_oldnew := tb0.t_v_oldnew },
              vt.length)
          | none =>
            some (p2.1,
              { m_oldnew := p1.2, t_oldnew := p2.2,
                t_v_oldnew := tb0.t_v_oldnew },
              0)
  match step1 with
  | none => none
  | some s1 =>
    let q := mergeCoList s1.1 cjf.city_objects s1.2.1 g_offset s1.2.2
    some
      ({ q.1 with
         vertices := q.1.vertices ++ cjf.vertices,
         sorted_ids := q.1.sorted_ids ++ [cjf.id] }, q.2)

/-- `CityJSON::add_cjfeature` (`src/lib.rs` lines 294-337).  The source
declares `m_oldnew`, `t_oldnew` and `t_v_oldnew` as fresh empty locals at the
top of every call (lines 295-297), so the body starts from empty tables. -/
def CityJSON.add_cjfeature (self : CityJSON) (cjf : CityJSONFeature) :
    Option CityJSON :=
  (addCjfeatureCore self cjf {}).map Prod.fst

/-! ## Vertex dedup and transform renormalization -/

/-- Lookup in the dedup key map `h : HashMap<String, usize>` of
`remove_duplicate_vertices`.  The source keys a vertex by the string
`"{} {} {}"` of its three coordinates, which is injective on integer triples,
so the embedding keys by the triple itself. -/
def vkeyGet (h : List (Vertex × Nat)) (v : Vertex) : Option Nat :=
  (List.find? (fun p => p.1 == v) h).map Prod.snd

/-- The scan loop of `remove_duplicate_vertices` (`src/lib.rs` lines 343-356):
walk the vertices with their index `i`; on a seen key record `i → first
position`, on a fresh key record `i → newvertices.len()` and keep the
vertex. -/
def dedupScan : List Vertex → Nat → List (Vertex × Nat) → Table →
    List Vertex → Table × List Vertex
  | [], _, _, newids, newvertices => (newids, newvertices)
  | v :: rest, i, h, newids, newvertices =>
    match vkeyGet h v with
    | some x => dedupScan rest (i + 1) h (Table.insert newids i x) newvertices
    | none =>
      dedupScan rest (i + 1) (h ++ [(v, newvertices.length)])
        (Table.insert newids i newvertices.length) (newvertices ++ [v])

/-- The geometry loop of the index-update phase of
`remove_duplicate_vertices` (`src/lib.rs` lines 360-365). -/
def rdvGeomList : List Geometry → Table → List Geometry × Table
  | [], t => ([], t)
  | g :: rest, t =>
    let p := g.update_geometry_boundaries t
    let q := rdvGeomList rest p.2
    (p.1 :: q.1, q.2)

/-- The object loop of the index-update phase of `remove_duplicate_vertices`
(`src/lib.rs` lines 358-368), threading the shared `newids` table. -/
def rdvCoList : CoMap → Table → CoMap × Table
  | [], t => ([], t)
  | (key, co) :: rest, t =>
    let p : CityObject × Table :=
      match co.geometry with
      | some x =>
        let q := rdvGeomList x t
        ({ co with geometry := some q.1 }, q.2)
      | none => (co, t)
    let q := rdvCoList rest p.2
    ((key, p.1) :: q.1, q.2)

/-- `CityJSON::remove_duplicate_vertices` (`src/lib.rs` lines 338-371). -/
def CityJSON.remove_duplicate_vertices (self : CityJSON) : CityJSON :=
  let s := dedupScan self.vertices 0 [] [] []
  let p := rdvCoList self.city_objects s.1
  { self with city_objects := p.1, vertices := s.2 }

/-- The largest `i64`, the start value of the minimum scan of
`update_transform`. -/
def i64MAX : Int := 2 ^ 63 - 1

/-- The minimum scan of `update_transform` (`src/lib.rs` lines 374-382):
per-axis minima over all vertices, folded from `i64::MAX`. -/
def minsOf (vs : List Vertex) : Vertex :=
  vs.foldl
    (fun m v =>
      (if v.1 < m.1 then v.1 else m.1,
       if v.2.1 < m.2.1 then v.2.1 else m.2.1,
       if v.2.2 < m.2.2 then v.2.2 else m.2.2))
    (i64MAX, i64MAX, i64MAX)

/-- `CityJSON::update_transform` (`src/lib.rs` lines 372-395): subtract the
per-axis minima from every vertex and fold the removed offset into the
translation (`translate[i] += min[i] * scale[i]`). -/
def CityJSON.update_transform (self : CityJSON) : CityJSON :=
  let mins := minsOf self.vertices
  let newvertices := self.vertices.map
    (fun v => (v.1 - mins.1, v.2.1 - mins.2.1, v.2.2 - mins.2.2))
  let ttx := (mins.1 : ℚ) * self.transform.scale.1 + self.transform.translate.1
  let tty := (mins.2.1 : ℚ) * self.transform.scale.2.1 + self.transform.translate.2.1
  let ttz := (mins.2.2 : ℚ) * self.transform.scale.2.2 + self.transform.translate.2.2
  { self with
    vertices := newvertices,
    transform := { self.transform with translate := (ttx, tty, ttz) } }

/-! ## JSON parsing and serialization of nested arrays
(`src/lib.rs` lines 619-800) -/

/-- `serde_json::Value::as_u64`: a non-negative integral number representable
in `u64`. -/
def jsonAsU64 : Json → Option Nat
  | .num n => if 0 ≤ n ∧ n < 2 ^ 64 then some n.toNat else none
  | _ => none

/-- `serde_json::Value::as_i64`: an integral number representable in `i64`. -/
def jsonAsI64 : Json → Option Int
  | .num n => if -(2 ^ 63) ≤ n ∧ n < 2 ^ 63 then some n else none
  | _ => none

/-- `<u32 as JsonIndex>::from_value` (`src/lib.rs` lines 631-641): `as_u64`
then `as_i64`, each cast to `u32` (a wrapping Rust `as` cast, two's
complement truncation). -/
def u32FromValue (v : Json) : Option Nat :=
  match jsonAsU64 v with
  | some u => some (u % 2 ^ 32)
  | none => (jsonAsI64 v).map (fun i => (i % (2 : Int) ^ 32).toNat)

/-- `<u32 as JsonIndex>::to_value` (`src/lib.rs` lines 643-645). -/
def u32ToValue (x : Nat) : Json := .num x

/-- `<Option<u32> as JsonIndex>::from_value` (`src/lib.rs` lines 652-663):
JSON `null` becomes `None`, numbers become `Some`. -/
def optU32FromValue (v : Json) : Option (Option Nat) :=
  match v with
  | .null => some none
  | _ =>
    match jsonAsU64 v with
    | some u => some (some (u % 2 ^ 32))
    | none => (jsonAsI64 v).map (fun i => some ((i % (2 : Int) ^ 32).toNat))

/-- `<Option<u32> as JsonIndex>::to_value` (`src/lib.rs` lines 665-670):
`Some x` to a number, `None` to `null`. -/
def optU32ToValue (x : Option Nat) : Json :=
  match x with
  | some v => .num v
  | none => .null

/-- `<usize as JsonIndex>::from_value` (`src/lib.rs` lines 674-682); the
`i64`-to-`usize` cast wraps two's complement on 64 bits. -/
def usizeFromValue (v : Json) : Option Nat :=
  match jsonAsU64 v with
  | some u => some u
  | none => (jsonAsI64 v).map (fun i => (i % (2 : Int) ^ 64).toNat)

/-- `<usize as JsonIndex>::to_value` (`src/lib.rs` lines 684-686). -/
def usizeToValue (x : Nat) : Json := .num x

/-- `<Option<usize> as JsonIndex>::from_value` (`src/lib.rs` lines 690-700). -/
def optUsizeFromValue (v : Json) : Option (Option Nat) :=
  match v with
  | .null => some none
  | _ =>
    match jsonAsU64 v with
    | some u => some (some u)
    | none => (jsonAsI64 v).map (fun i => some ((i % (2 : Int) ^ 64).toNat))

/-- `<Option<usize> as JsonIndex>::to_value` (`src/lib.rs` lines 702-704):
the source serializes through `Value::Array(self.iter().map(..).collect())`,
so `Some x` becomes the one-element array `[x]` and `None` becomes `[]`
(unlike the `Option<u32>` impl directly above it, which emits a bare number
or `null`). -/
def optUsizeToValue (x : Option Nat) : Json :=
  match x with
  | some v => .arr [.num v]
  | none => .arr []

mutual
/-- `parse_nested_array` (`src/lib.rs` lines 751-781): an empty array is
`Indices []`; an array whose first element is an array parses every element
recursively as `Nested`; otherwise each element is coerced by `from_value`
and silently dropped on coercion failure; a non-array is `Indices []`. -/
def parse_nested_array {T : Type} (fromV : Json → Option T) : Json → NestedArray T
  | .arr [] => .Indices []
  | .arr (e :: es) =>
    match e with
    | .arr _ => .Nested (parseNestedList fromV (e :: es))
    | _ => .Indices ((e :: es).filterMap fromV)
  | _ => .Indices []

/-- The element recursion of `parse_nested_array` over a JSON array. -/
def parseNestedList {T : Type} (fromV : Json → Option T) :
    List Json → List (NestedArray T)
  | [] => []
  | x :: xs => parse_nested_array fromV x :: parseNestedList fromV xs
end

mutual
/-- `nested_array_to_value` (`src/lib.rs` lines 786-800): leaves through
`to_value`, sub-arrays recursively. -/
def nested_array_to_value {T : Type} (toV : T → Json) : NestedArray T → Json
  | .Indices vec => .arr (vec.map toV)
  | .Nested vec => .arr (nestedListToValue toV vec)

/-- The element recursion of `nested_array_to_value`. -/
def nestedListToValue {T : Type} (toV : T → Json) :
    List (NestedArray T) → List Json
  | [] => []
  | x :: xs => nested_array_to_value toV x :: nestedListToValue toV xs
end

/-! ## Merge folds over a feature stream -/

/-- A whole merge as the callers run it (`tests/cjf_input.rs`,
`src/conv/obj.rs` lines 99-115): starting from a header document, one
`add_cjfeature` call per feature, in arrival order. -/
def mergeFresh (header : CityJSON) (fs : List CityJSONFeature) :
    Option CityJSON :=
  fs.foldlM CityJSON.add_cjfeature header

/-- Modelled from the spec: `src/lib.rs` does not thread the material,
texture and texture-vertex remap tables from one `add_cjfeature` call to the
next, but the specification (section 4.5, step 1) states the tables are
"persisted across features within one merge" and "accumulate across the whole
stream".  This merge realizes that wording: the same per-feature body, with
the three tables carried from each feature to the next. -/
def mergePersistent (header : CityJSON) (fs : List CityJSONFeature) :
    Option (CityJSON × MergeTables) :=
  fs.foldlM (fun acc f => addCjfeatureCore acc.1 f acc.2) (header, ({} : MergeTables))

/-! ## Derived notions used to state the verified properties -/

/-- The keys of a remap table, in insertion order. -/
def Table.keys (t : Table) : List Nat := t.map Prod.fst

/-- The assigned new ids of a remap table, in insertion order. -/
def Table.values (t : Table) : List Nat := t.map Prod.snd

/-- A table is canonical when its assigned ids are exactly `0, 1, …, len-1`
in insertion order — the shape every table built from empty by the
miss-assigns-`len` rule has. -/
def Table.canonical (t : Table) : Prop := Table.values t = List.range t.length

/-- Resolution of an old id through a finished table (defaulting, never used
on a miss in any proved statement). -/
def resolveF (t : Table) (x : Nat) : Nat := (Table.get t x).getD 0

/-- A number is a recorded new id of the table. -/
def Table.hasValue (t : Table) (y : Nat) : Prop :=
  ∃ x, Table.get t x = some y

/-- The distinct elements of a list in order of first appearance, folded onto
an accumulator. -/
def firstSeenFrom (acc : List Nat) (l : List Nat) : List Nat :=
  l.foldl (fun a x => if x ∈ a then a else a ++ [x]) acc

/-- The distinct elements of a list, in order of first appearance. -/
def firstSeen (l : List Nat) : List Nat := firstSeenFrom [] l

/-- The boundary leaf indices of one geometry. -/
def Geometry.vleaves (g : Geometry) : List Nat := g.boundaries.leaves

/-- The boundary leaf indices of a geometry list, in document order. -/
def geomsLeaves (gs : List Geometry) : List Nat :=
  (gs.map Geometry.vleaves).flatten

/-- The boundary leaf indices of one city object. -/
def CityObject.vleaves (co : CityObject) : List Nat :=
  match co.geometry with
  | some gs => geomsLeaves gs
  | none => []

/-- The boundary leaf indices of every object of a `CityObjects` map. -/
def coMapLeaves (m : CoMap) : List Nat :=
  (m.map (fun p => p.2.vleaves)).flatten

/-- The boundary leaf indices of a whole document. -/
def CityJSON.vleaves (cj : CityJSON) : List Nat := coMapLeaves cj.city_objects

/-- The boundary leaf indices of a feature. -/
def CityJSONFeature.vleaves (f : CityJSONFeature) : List Nat :=
  coMapLeaves f.city_objects

/-- Index consistency of a document: every boundary leaf is a valid position
in its vertex array. -/
def CityJSON.boundsValid (cj : CityJSON) : Prop :=
  ∀ x ∈ cj.vleaves, x < cj.vertices.length

/-- Index consistency of a feature: every boundary leaf is a valid position
in its local vertex array. -/
def CityJSONFeature.boundsValid (f : CityJSONFeature) : Prop :=
  ∀ x ∈ f.vleaves, x < f.vertices.length

/-- The real-world coordinates of a stored vertex:
`vertex[i] * scale[i] + translate[i]`, per axis, read over `ℚ`. -/
def realWorld (t : Transform) (v : Vertex) : ℚ × ℚ × ℚ :=
  ((v.1 : ℚ) * t.scale.1 + t.translate.1,
   (v.2.1 : ℚ) * t.scale.2.1 + t.translate.2.1,
   (v.2.2 : ℚ) * t.scale.2.2 + t.translate.2.2)

/-! ## Concrete documents and observation helpers used by the
witnesses and counterexamples -/

/-- The texture value leaves of the first texture theme of the first geometry
of a named object. -/
def texValuesOf (d : CityJSON) (objid : String) : Option (List (Option Nat)) := do
  let co ← CoMap.get d.city_objects objid
  let gs ← co.geometry
  let g ← gs[0]?
  let tx ← g.texture
  let p ← tx[0]?
  pure p.2.values.leaves

/-- The stored texture-vertex (uv) count of a document. -/
def uvCountOf (d : CityJSON) : Option Nat :=
  (d.appearance.bind Appearance.vertices_texture).map List.length

/-- The scalar material value of the first material theme of the first
geometry of a named object. -/
def matValOf (d : CityJSON) (objid : String) : Option (Option Nat) := do
  let co ← CoMap.get d.city_objects objid
  let gs ← co.geometry
  let g ← gs[0]?
  let mm ← g.material
  let p ← mm[0]?
  pure p.2.value

/-- A textured test document: one building whose single `MultiSurface` ring
uses vertices `0 1 2` and texture `0` with uv indices `0 1 2`; the appearance
stores one texture and the three uv pairs.  All indices are internally
consistent. -/
def c1_geom : Geometry :=
  { thetype := .MultiSurface,
    boundaries := .Nested [.Nested [.Indices [0, 1, 2]]],
    texture := some
      [("t", ⟨.Nested [.Nested [.Indices [some 0, some 0, some 1, some 2]]]⟩)] }

/-- The single city object of `c1_doc`. -/
def c1_co : CityObject := { thetype := "Building", geometry := some [c1_geom] }

/-- The textured test document (already vertex-deduplicated and with per-axis
minimum 0, so it is its own dedup/renormalization normal form). -/
def c1_doc : CityJSON :=
  { thetype := "CityJSON", version := "2.0", transform := Transform.new,
    city_objects := [("a", c1_co)],
    vertices := [((0 : Int), (0 : Int), (0 : Int)), (1, 0, 0), (0, 1, 0)],
    appearance := some
      { textures := some [{ image := "a.jpg" }],
        vertices_texture := some [((0 : ℚ), (0 : ℚ)), (1, 0), (0, 1)] },
    sorted_ids := ["a"] }

/-- The split/merge round trip on `c1_doc`: extract its single feature, fold
it back into the empty header, deduplicate, renormalize. -/
def c1_merged : Option CityJSON := do
  let hdr ← c1_doc.get_metadata
  let f ← match c1_doc.get_cjfeature 0 with
          | .feature f => some f
          | _ => none
  let d1 ← hdr.add_cjfeature f
  pure d1.remove_duplicate_vertices.update_transform

/-- A small consistent document for the index-validity witness: one object,
one `MultiPoint` over vertices `0 1 0`. -/
def c2_doc : CityJSON :=
  { thetype := "CityJSON", version := "2.0", transform := Transform.new,
    city_objects :=
      [("b", { thetype := "Building",
               geometry := some [{ thetype := .MultiPoint,
                                   boundaries := .Indices [0, 1, 0] }] })],
    vertices := [((0 : Int), (0 : Int), (0 : Int)), (5, 5, 5)],
    sorted_ids := ["b"] }

/-- A small consistent feature for the index-validity witness. -/
def c2_feat : CityJSONFeature :=
  { thetype := "CityJSONFeature", id := "c",
    city_objects :=
      [("c", { thetype := "Building",
               geometry := some [{ thetype := .MultiPoint,
                                   boundaries := .Indices [1, 0] }] })],
    vertices := [((7 : Int), (7 : Int), (7 : Int)), (8, 8, 8)] }

/-- An empty header document for the merge counterexample. -/
def c3_hdr : CityJSON :=
  { thetype := "CityJSON", version := "2.0", transform := Transform.new,
    city_objects := [], vertices := [] }

/-- First merged feature: carries two materials (names `a`, `b`), no
geometry. -/
def c3_f1 : CityJSONFeature :=
  { thetype := "CityJSONFeature", id := "o1",
    city_objects := [("o1", { thetype := "Building" })], vertices := [],
    appearance := some { materials := some [{ name := "a" }, { name := "b" }] } }

/-- Second merged feature: no appearance of its own, a geometry whose material
reference is the scalar value `1`. -/
def c3_f2 : CityJSONFeature :=
  { thetype := "CityJSONFeature", id := "o2",
    city_objects :=
      [("o2", { thetype := "Building",
                geometry := some [{ thetype := .MultiPoint,
                                    boundaries := .Indices [],
                                    material := some [("m", { value := some 1 })] }] })],
    vertices := [] }

/-- The materials list of a document's appearance. -/
def matsOf (d : CityJSON) : Option (List MaterialObject) :=
  d.appearance.bind Appearance.materials

/-- The textures list of a document's appearance. -/
def texsOf (d : CityJSON) : Option (List TextureObject) :=
  d.appearance.bind Appearance.textures

/-- A document for the transform-renormalization witness. -/
def c6_doc : CityJSON :=
  { thetype := "CityJSON", version := "2.0",
    transform := { scale := ((1 : ℚ)/1000, 1/1000, 1/1000),
                   translate := ((100 : ℚ), 200, 300) },
    city_objects := [], vertices := [((3 : Int), 5, -2), (7, 5, 4)] }

/-- A document with a duplicated vertex for the dedup-idempotence witness. -/
def c7_doc : CityJSON :=
  { thetype := "CityJSON", version := "2.0", transform := Transform.new,
    city_objects :=
      [("d", { thetype := "Building",
               geometry := some [{ thetype := .MultiPoint,
                                   boundaries := .Indices [0, 1, 2, 3] }] })],
    vertices := [((0 : Int), 0, 0), (1, 0, 0), (0, 0, 0), (2, 0, 0)],
    sorted_ids := ["d"] }

/-- A document with a parent, a child and a grandchild for the one-level
descent witness: `p`'s children list holds only `c`, and `c`'s holds `g`. -/
def c9_doc : CityJSON :=
  { thetype := "CityJSON", version := "2.0", transform := Transform.new,
    city_objects :=
      [("p", { thetype := "Building", children := some ["c"] }),
       ("c", { thetype := "BuildingPart", parents := some ["p"],
               children := some ["g"] }),
       ("g", { thetype := "BuildingRoom", parents := some ["c"] })],
    vertices := [], sorted_ids := ["p"] }

/-- Decidability of document index consistency, for concrete inputs. -/
instance (cj : CityJSON) : Decidable cj.boundsValid := by
  unfold CityJSON.boundsValid; infer_instance

/-- Decidability of feature index consistency, for concrete inputs. -/
instance (f : CityJSONFeature) : Decidable f.boundsValid := by
  unfold CityJSONFeature.boundsValid; infer_instance

/-- The feature split off `c2_doc`. -/
def c2_feat_out : CityJSONFeature :=
  match c2_doc.get_cjfeature 0 with
  | .feature f => f
  | _ => CityJSONFeature.new

/-- `c2_doc` with `c2_feat` folded in. -/
def c2_merged : CityJSON := (c2_doc.add_cjfeature c2_feat).getD c2_doc

/-- Two materials of the same name, for the content-dedup witness. -/
def c3_ms : List MaterialObject := [{ name := "a" }, { name := "a" }]

/-- The result of adding `c3_ms` to the empty header. -/
def c3_loopRes : CityJSON × Table :=
  (addMaterialsLoop c3_hdr c3_ms 0 []).getD (c3_hdr, [])

/-- Two textures of the same image path, for the content-dedup witness. -/
def c3_ts : List TextureObject := [{ image := "a.jpg" }, { image := "a.jpg" }]

/-- The result of adding `c3_ts` to the empty header. -/
def c3_texLoopRes : CityJSON × Table :=
  (addTexturesLoop c3_hdr c3_ts 0 []).getD (c3_hdr, [])

/-- A well-formed depth-consistent nullable-leaf array: `[0, null]`. -/
def c4_input : Json := .arr [.num 0, .null]

/-- The feature split off `c9_doc`. -/
def c9_feat_out : CityJSONFeature :=
  match c9_doc.get_cjfeature 0 with
  | .feature f => f
  | _ => CityJSONFeature.new

/-! # Lemma layer

Facts about the remap tables and the renumbering passes, shared by the claim
theorems below. -/

theorem Table.get_append_of_some {t extra : Table} {k v : Nat}
    (h : Table.get t k = some v) : Table.get (t ++ extra) k = some v := by
  unfold Table.get at h ⊢
  rw [List.find?_append]
  cases hf : List.find? (fun p => p.1 == k) t with
  | none => rw [hf] at h; simp at h
  | some p => rw [hf] at h; simpa using h

theorem Table.get_resolve_self (t : Table) (k : Nat) :
    Table.get (Table.resolve t k).2 k = some (Table.resolve t k).1 := by
  unfold Table.resolve
  cases h : Table.get t k with
  | some v => simpa using h
  | none =>
    simp only
    unfold Table.get at h ⊢
    rw [List.find?_append]
    cases hf : List.find? (fun p => p.1 == k) t with
    | some p => rw [hf] at h; simp at h
    | none => simp [List.find?]

theorem Table.get_extend1_of_some {t : Table} {k v : Nat} (x : Nat)
    (h : Table.get t k = some v) : Table.get (Table.extend1 t x) k = some v := by
  unfold Table.extend1 Table.resolve
  cases hg : Table.get t x with
  | some w => simpa using h
  | none => exact Table.get_append_of_some h

theorem Table.get_extendList_of_some {l : List Nat} {t : Table} {k v : Nat}
    (h : Table.get t k = some v) :
    Table.get (Table.extendList t l) k = some v := by
  induction l generalizing t with
  | nil => exact h
  | cons x xs ih => exact ih (Table.get_extend1_of_some x h)

theorem Table.get_extendList_isSome_of_mem {l : List Nat} {t : Table} {x : Nat}
    (h : x ∈ l) : (Table.get (Table.extendList t l) x).isSome := by
  induction l generalizing t with
  | nil => cases h
  | cons y ys ih =>
    rcases List.mem_cons.mp h with rfl | hm
    · have hv := Table.get_extendList_of_some (l := ys) (Table.get_resolve_self t x)
      show (Table.get (Table.extendList (Table.extend1 t x) ys) x).isSome
      rw [show Table.extend1 t x = (Table.resolve t x).2 from rfl, hv]
      rfl
    · exact ih hm

theorem Table.get_isSome_iff_mem_keys {t : Table} {k : Nat} :
    (Table.get t k).isSome ↔ k ∈ Table.keys t := by
  unfold Table.get Table.keys
  constructor
  · intro h
    cases hf : List.find? (fun p => p.1 == k) t with
    | none => rw [hf] at h; simp at h
    | some p =>
      have hp := List.mem_of_find?_eq_some hf
      have hpk := List.find?_some hf
      simp only [beq_iff_eq] at hpk
      exact hpk ▸ List.mem_map_of_mem Prod.fst hp
  · intro hk
    rcases List.mem_map.mp hk with ⟨p, hp, hpk⟩
    have hs : (List.find? (fun p => p.1 == k) t).isSome :=
      List.find?_isSome.mpr ⟨p, hp, by simp [hpk]⟩
    cases hf : List.find? (fun p => p.1 == k) t with
    | none => rw [hf] at hs; simp at hs
    | some p2 => simp [hf]

theorem Table.canonical_nil : Table.canonical [] := by
  simp [Table.canonical, Table.values]

theorem Table.canonical_extend1 {t : Table} (h : t.canonical) (k : Nat) :
    (Table.extend1 t k).canonical := by
  unfold Table.extend1 Table.resolve
  cases hg : Table.get t k with
  | some v => simpa using h
  | none =>
    unfold Table.canonical Table.values at h ⊢
    simp only [List.map_append, List.map_cons, List.map_nil,
      List.length_append, List.length_cons, List.length_nil, Nat.zero_add,
      List.range_succ]
    rw [h]

theorem Table.canonical_extendList {t : Table} (h : t.canonical) (l : List Nat) :
    (Table.extendList t l).canonical := by
  induction l generalizing t with
  | nil => exact h
  | cons x xs ih => exact ih (Table.canonical_extend1 h x)

theorem Table.get_lt_of_canonical {t : Table} (h : t.canonical) {k v : Nat}
    (hg : Table.get t k = some v) : v < t.length := by
  unfold Table.get at hg
  cases hf : List.find? (fun p => p.1 == k) t with
  | none => rw [hf] at hg; simp at hg
  | some p =>
    rw [hf] at hg
    have hv : p.2 = v := by simpa using hg
    subst hv
    have hp : p ∈ t := List.mem_of_find?_eq_some hf
    have : p.2 ∈ Table.values t := List.mem_map_of_mem Prod.snd hp
    rw [Table.canonical] at h
    rw [h] at this
    rw [List.mem_range] at this
    omega

theorem Table.keys_extend1_subset (t : Table) (k : Nat) :
    Table.keys (Table.extend1 t k) ⊆ Table.keys t ++ [k] := by
  unfold Table.extend1 Table.resolve
  cases hg : Table.get t k with
  | some v => intro a ha; exact List.mem_append_left _ ha
  | none =>
    intro a ha
    unfold Table.keys at ha ⊢
    rw [List.map_append] at ha
    simpa using ha

theorem Table.keys_extendList_subset (t : Table) (l : List Nat) :
    Table.keys (Table.extendList t l) ⊆ Table.keys t ++ l := by
  induction l generalizing t with
  | nil => simp [Table.extendList]
  | cons x xs ih =>
    intro a ha
    have h1 := ih (t := Table.extend1 t x) ha
    rcases List.mem_append.mp h1 with h2 | h2
    · have h3 := Table.keys_extend1_subset t x h2
      rcases List.mem_append.mp h3 with h4 | h4
      · exact List.mem_append_left _ h4
      · simp only [List.mem_singleton] at h4
        subst h4
        exact List.mem_append_right _ (List.mem_cons_self _ _)
    · exact List.mem_append_right _ (List.mem_cons_of_mem _ h2)

theorem Table.extendList_append (t : Table) (l1 l2 : List Nat) :
    Table.extendList t (l1 ++ l2) =
      Table.extendList (Table.extendList t l1) l2 :=
  List.foldl_append _ _ _ _

theorem Table.extend1_of_isSome {t : Table} {k : Nat}
    (h : (Table.get t k).isSome) : Table.extend1 t k = t := by
  unfold Table.extend1 Table.resolve
  cases hg : Table.get t k with
  | some v => rfl
  | none => rw [hg] at h; simp at h

theorem Table.extendList_of_all_isSome {t : Table} {l : List Nat}
    (h : ∀ x ∈ l, (Table.get t x).isSome) : Table.extendList t l = t := by
  induction l with
  | nil => rfl
  | cons x xs ih =>
    have h1 : Table.extend1 t x = t := Table.extend1_of_isSome (h x (by simp))
    show Table.extendList (Table.extend1 t x) xs = t
    rw [h1]
    exact ih (fun y hy => h y (List.mem_cons_of_mem _ hy))

theorem NestedArray.mapLeaves_leaves {T U : Type} (f : T → U) :
    (∀ b : NestedArray T,
      (NestedArray.mapLeaves f b).leaves = b.leaves.map f) ∧
    (∀ l : List (NestedArray T),
      NestedArray.leavesL (NestedArray.mapLeavesL f l) =
        (NestedArray.leavesL l).map f) := by
  apply NestedArray.leaves.mutual_induct
  · intro l; simp [NestedArray.mapLeaves, NestedArray.leaves]
  · intro l hl; simp [NestedArray.mapLeaves, NestedArray.leaves, hl]
  · simp [NestedArray.mapLeavesL, NestedArray.leavesL]
  · intro x xs hx hxs
    simp [NestedArray.mapLeavesL, NestedArray.leavesL, hx, hxs]

theorem NestedArray.mapLeaves_congr {T U : Type} (f g : T → U) :
    (∀ b : NestedArray T, (∀ x ∈ b.leaves, f x = g x) →
      NestedArray.mapLeaves f b = NestedArray.mapLeaves g b) ∧
    (∀ l : List (NestedArray T), (∀ x ∈ NestedArray.leavesL l, f x = g x) →
      NestedArray.mapLeavesL f l = NestedArray.mapLeavesL g l) := by
  apply NestedArray.leaves.mutual_induct
  · intro l h
    simp only [NestedArray.mapLeaves]
    rw [List.map_congr_left (by simpa [NestedArray.leaves] using h)]
  · intro l hl h
    simp only [NestedArray.mapLeaves]
    rw [hl (by simpa [NestedArray.leaves] using h)]
  · intro _; rfl
  · intro x xs hx hxs h
    simp only [NestedArray.mapLeavesL]
    have h1 : ∀ y ∈ x.leaves, f y = g y := fun y hy =>
      h y (by simp [NestedArray.leavesL, hy])
    have h2 : ∀ y ∈ NestedArray.leavesL xs, f y = g y := fun y hy =>
      h y (by simp [NestedArray.leavesL, hy])
    rw [hx h1, hxs h2]

theorem NestedArray.mapLeaves_self {T : Type} (f : T → T) :
    (∀ b : NestedArray T, (∀ x ∈ b.leaves, f x = x) →
      NestedArray.mapLeaves f b = b) ∧
    (∀ l : List (NestedArray T), (∀ x ∈ NestedArray.leavesL l, f x = x) →
      NestedArray.mapLeavesL f l = l) := by
  apply NestedArray.leaves.mutual_induct
  · intro l h
    simp only [NestedArray.mapLeaves, NestedArray.Indices.injEq]
    rw [List.map_congr_left (by simpa [NestedArray.leaves] using h)]
    exact List.map_id _
  · intro l hl h
    simp only [NestedArray.mapLeaves, NestedArray.Nested.injEq]
    exact hl (by simpa [NestedArray.leaves] using h)
  · intro _; rfl
  · intro x xs hx hxs h
    simp only [NestedArray.mapLeavesL, List.cons.injEq]
    exact ⟨hx (fun y hy => h y (by simp [NestedArray.leavesL, hy])),
      hxs (fun y hy => h y (by simp [NestedArray.leavesL, hy]))⟩

theorem updateLeafList_char (l : List Nat) (t : Table) :
    updateLeafList l t =
      (l.map (resolveF (Table.extendList t l)), Table.extendList t l) := by
  induction l generalizing t with
  | nil => rfl
  | cons i rest ih =>
    have h1 : Table.get (Table.extendList ((Table.resolve t i).2) rest) i =
        some (Table.resolve t i).1 :=
      Table.get_extendList_of_some (Table.get_resolve_self t i)
    have hT : Table.extendList t (i :: rest) =
        Table.extendList ((Table.resolve t i).2) rest := rfl
    rw [hT]
    simp only [updateLeafList, ih, List.map_cons]
    congr 1
    congr 1
    rw [resolveF, h1]
    rfl

theorem update_indices_char :
    (∀ (b : Boundaries) (t : Table),
      Boundaries.update_indices_recursively b t =
        (NestedArray.mapLeaves (resolveF (Table.extendList t b.leaves)) b,
         Table.extendList t b.leaves)) ∧
    (∀ (l : List Boundaries) (t : Table),
      Boundaries.updateIndicesList l t =
        (NestedArray.mapLeavesL
           (resolveF (Table.extendList t (NestedArray.leavesL l))) l,
         Table.extendList t (NestedArray.leavesL l))) := by
  apply Boundaries.update_indices_recursively.mutual_induct
  · intro arr t
    simp only [Boundaries.update_indices_recursively, updateLeafList_char,
      NestedArray.leaves, NestedArray.mapLeaves]
  · intro nested t h
    simp only [Boundaries.update_indices_recursively, h,
      NestedArray.leaves, NestedArray.mapLeaves]
  · intro t; rfl
  · intro x xs t
    dsimp only
    intro hx hxs
    rw [hx] at hxs
    simp only at hxs
    simp only [Boundaries.updateIndicesList, hx, hxs]
    have hLcons : NestedArray.leavesL (x :: xs) =
        x.leaves ++ NestedArray.leavesL xs := rfl
    have hT : Table.extendList t (NestedArray.leavesL (x :: xs)) =
        Table.extendList (Table.extendList t x.leaves)
          (NestedArray.leavesL xs) := by
      rw [hLcons, Table.extendList_append]
    simp only [NestedArray.mapLeavesL, hT, List.cons.injEq]
    congr 2
    apply (NestedArray.mapLeaves_congr _ _).1
    intro y hy
    have hsome : (Table.get (Table.extendList t x.leaves) y).isSome :=
      Table.get_extendList_isSome_of_mem hy
    cases hg : Table.get (Table.extendList t x.leaves) y with
    | none => rw [hg] at hsome; simp at hsome
    | some v =>
      rw [resolveF, hg]
      rw [resolveF, Table.get_extendList_of_some hg]

theorem updateSubList_eq (l : List Boundaries) (t : Table) :
    Geometry.updateSubList l t = Boundaries.updateIndicesList l t := by
  induction l generalizing t with
  | nil => rfl
  | cons x xs ih =>
    have hx : Geometry.updateSub x t = Boundaries.update_indices_recursively x t := by
      cases x with
      | Indices r => rfl
      | Nested inner => rfl
    simp only [Geometry.updateSubList, Boundaries.updateIndicesList, hx, ih]

theorem updateBoundariesVal_eq (b : Boundaries) (t : Table) :
    Geometry.updateBoundariesVal b t =
      Boundaries.update_indices_recursively b t := by
  cases b with
  | Indices arr => rfl
  | Nested nested =>
    simp only [Geometry.updateBoundariesVal,
      Boundaries.update_indices_recursively, updateSubList_eq]

theorem offset_leaves (off : Nat) :
    (∀ b : Boundaries,
      (b.offset_geometry_boundaries off).leaves =
        b.leaves.map (fun i => i + off)) ∧
    (∀ l : List Boundaries,
      NestedArray.leavesL (Boundaries.offsetList l off) =
        (NestedArray.leavesL l).map (fun i => i + off)) := by
  apply NestedArray.leaves.mutual_induct
  · intro l; rfl
  · intro l hl
    simp [Boundaries.offset_geometry_boundaries, NestedArray.leaves, hl]
  · rfl
  · intro x xs hx hxs
    simp [Boundaries.offsetList, NestedArray.leavesL, hx, hxs]

theorem resolveF_lt {T : Table} (hc : T.canonical) {x : Nat}
    (hx : (Table.get T x).isSome) : resolveF T x < T.length := by
  cases hg : Table.get T x with
  | none => rw [hg] at hx; simp at hx
  | some v =>
    rw [resolveF, hg]
    exact Table.get_lt_of_canonical hc hg

theorem Table.keys_extend1_eq (t : Table) (k : Nat) :
    Table.keys (Table.extend1 t k) =
      if k ∈ Table.keys t then Table.keys t else Table.keys t ++ [k] := by
  unfold Table.extend1 Table.resolve
  cases hg : Table.get t k with
  | some v =>
    have hm : k ∈ Table.keys t :=
      Table.get_isSome_iff_mem_keys.mp (by simp [hg])
    simp [hm]
  | none =>
    have hm : k ∉ Table.keys t := by
      intro hmem
      have := Table.get_isSome_iff_mem_keys.mpr hmem
      rw [hg] at this; simp at this
    simp only [hm, if_false]
    unfold Table.keys
    simp

theorem Table.keys_extendList_eq (t : Table) (l : List Nat) :
    Table.keys (Table.extendList t l) = firstSeenFrom (Table.keys t) l := by
  induction l generalizing t with
  | nil => rfl
  | cons x xs ih =>
    show Table.keys (Table.extendList (Table.extend1 t x) xs) = _
    rw [ih]
    show _ = firstSeenFrom
      (if x ∈ Table.keys t then Table.keys t else Table.keys t ++ [x]) xs
    rw [Table.keys_extend1_eq]

theorem Table.hasValue_extend1 {t : Table} {y : Nat} (h : t.hasValue y)
    (k : Nat) : (Table.extend1 t k).hasValue y := by
  rcases h with ⟨x, hx⟩
  exact ⟨x, Table.get_extend1_of_some k hx⟩

theorem Table.hasValue_extendList {t : Table} {y : Nat} (h : t.hasValue y)
    (l : List Nat) : (Table.extendList t l).hasValue y := by
  rcases h with ⟨x, hx⟩
  exact ⟨x, Table.get_extendList_of_some hx⟩

theorem Table.hasValue_lt {t : Table} (hc : t.canonical) {y : Nat}
    (h : t.hasValue y) : y < t.length := by
  rcases h with ⟨x, hx⟩
  exact Table.get_lt_of_canonical hc hx

theorem Table.hasValue_resolveF {t : Table} {x : Nat}
    (h : (Table.get t x).isSome) : t.hasValue (resolveF t x) := by
  cases hg : Table.get t x with
  | none => rw [hg] at h; simp at h
  | some v =>
    refine ⟨x, ?_⟩
    rw [resolveF, hg]
    rfl

theorem sliceFill_length {α : Type} {tbl : Table} {src acc : List α}
    {out : List α} (h : sliceFill tbl src acc = some out) :
    out.length = acc.length := by
  induction tbl generalizing acc with
  | nil =>
    simp only [sliceFill, Option.some.injEq] at h
    rw [← h]
  | cons p rest ih =>
    rw [sliceFill] at h
    cases hs : src[p.1]? with
    | none => rw [hs] at h; simp at h
    | some v =>
      rw [hs] at h
      dsimp only at h
      by_cases hlt : p.2 < acc.length
      · rw [if_pos hlt] at h
        have := ih h
        rwa [List.length_set] at this
      · rw [if_neg hlt] at h; simp at h

theorem sliceByTable_length {α : Type} {tbl : Table} {src : List α} {d : α}
    {out : List α} (h : sliceByTable tbl src d = some out) :
    out.length = tbl.length := by
  have := sliceFill_length h
  rwa [List.length_replicate] at this

theorem mem_coMapLeaves {m : CoMap} {y : Nat} :
    y ∈ coMapLeaves m ↔ ∃ p ∈ m, y ∈ p.2.vleaves := by
  unfold coMapLeaves
  rw [List.mem_flatten]
  constructor
  · rintro ⟨l, hl, hy⟩
    rcases List.mem_map.mp hl with ⟨p, hp, rfl⟩
    exact ⟨p, hp, hy⟩
  · rintro ⟨p, hp, hy⟩
    exact ⟨p.2.vleaves, List.mem_map.mpr ⟨p, hp, rfl⟩, hy⟩

theorem coMapLeaves_insert_sub {m : CoMap} {k : String} {v : CityObject}
    {y : Nat} (h : y ∈ coMapLeaves (CoMap.insert m k v)) :
    y ∈ coMapLeaves m ∨ y ∈ v.vleaves := by
  unfold CoMap.insert at h
  by_cases hk : (CoMap.get m k).isSome
  · rw [if_pos hk] at h
    rcases mem_coMapLeaves.mp h with ⟨p, hp, hy⟩
    rcases List.mem_map.mp hp with ⟨q, hq, hpq⟩
    by_cases hqk : q.1 == k
    · rw [if_pos hqk] at hpq
      right; rw [← hpq] at hy; exact hy
    · rw [if_neg hqk] at hpq
      left; exact mem_coMapLeaves.mpr ⟨q, hq, hpq ▸ hy⟩
  · rw [if_neg hk] at h
    rcases mem_coMapLeaves.mp h with ⟨p, hp, hy⟩
    rcases List.mem_append.mp hp with hp1 | hp1
    · left; exact mem_coMapLeaves.mpr ⟨p, hp1, hy⟩
    · right
      have : p = (k, v) := by simpa using hp1
      rw [this] at hy; exact hy

theorem CoMap.get_insert_isSome {m : CoMap} {k k' : String} {v : CityObject} :
    (CoMap.get (CoMap.insert m k v) k').isSome ↔
      k' = k ∨ (CoMap.get m k').isSome := by
  unfold CoMap.insert
  by_cases hk : (CoMap.get m k).isSome
  · rw [if_pos hk]
    unfold CoMap.get at hk ⊢
    rw [Option.isSome_map', Option.isSome_map', List.find?_isSome] at *
    rw [List.find?_isSome]
    constructor
    · rintro ⟨p, hp, hpk⟩
      rcases List.mem_map.mp hp with ⟨q, hq, hpq⟩
      by_cases hqk : q.1 == k
      · rw [if_pos hqk] at hpq
        rw [← hpq] at hpk
        simp only [beq_iff_eq] at hpk
        left; exact hpk.symm
      · rw [if_neg hqk] at hpq
        right; exact ⟨q, hq, hpq ▸ hpk⟩
    · rintro (rfl | ⟨p, hp, hpk⟩)
      · rcases hk with ⟨p, hp, hpk⟩
        refine ⟨(k', v), List.mem_map.mpr ⟨p, hp, ?_⟩, by simp⟩
        rw [if_pos hpk]
      · by_cases hpk2 : p.1 == k
        · refine ⟨(k, v), List.mem_map.mpr ⟨p, hp, by rw [if_pos hpk2]⟩, ?_⟩
          simp only [beq_iff_eq] at hpk hpk2
          simp [← hpk, hpk2]
        · exact ⟨p, List.mem_map.mpr ⟨p, hp, by rw [if_neg hpk2]⟩, hpk⟩
  · rw [if_neg hk]
    unfold CoMap.get at hk ⊢
    rw [Option.isSome_map', List.find?_isSome] at *
    rw [Option.isSome_map', List.find?_isSome]
    constructor
    · rintro ⟨p, hp, hpk⟩
      rcases List.mem_append.mp hp with hp1 | hp1
      · right; exact ⟨p, hp1, hpk⟩
      · have : p = (k, v) := by simpa using hp1
        rw [this] at hpk
        simp only [beq_iff_eq] at hpk
        left; exact hpk.symm
    · rintro (rfl | ⟨p, hp, hpk⟩)
      · exact ⟨(k', v), List.mem_append_right _ (by simp), by simp⟩
      · exact ⟨p, List.mem_append_left _ hp, hpk⟩

theorem Geometry.update_material_boundaries (g : Geometry) (t : Table) :
    (g.update_material t).1.boundaries = g.boundaries := by
  unfold Geometry.update_material
  cases g.material <;> rfl

theorem Geometry.update_texture_boundaries (g : Geometry) (tT tV : Table)
    (off : Nat) : (g.update_texture tT tV off).1.boundaries = g.boundaries := by
  unfold Geometry.update_texture
  cases g.texture <;> rfl

theorem Geometry.update_geometry_boundaries_char (g : Geometry) (t : Table) :
    g.update_geometry_boundaries t =
      ({ g with boundaries := NestedArray.mapLeaves (resolveF (Table.extendList t g.vleaves)) g.boundaries },
       Table.extendList t g.vleaves) := by
  unfold Geometry.update_geometry_boundaries
  rw [updateBoundariesVal_eq, update_indices_char.1]
  rfl

theorem geomsLeaves_cons (g : Geometry) (gs : List Geometry) :
    geomsLeaves (g :: gs) = g.vleaves ++ geomsLeaves gs := by
  simp [geomsLeaves]

theorem updateGeomList_table (gs : List Geometry) (tb : SplitTables) :
    (updateGeomList gs tb).2.g_vi_oldnew =
      Table.extendList tb.g_vi_oldnew (geomsLeaves gs) := by
  induction gs generalizing tb with
  | nil => rfl
  | cons g rest ih =>
    rw [updateGeomList]
    dsimp only
    rw [ih]
    dsimp only
    rw [Geometry.update_geometry_boundaries_char]
    dsimp only
    rw [geomsLeaves_cons, Table.extendList_append]

theorem updateGeomList_values (gs : List Geometry) (tb : SplitTables) :
    ∀ y ∈ geomsLeaves (updateGeomList gs tb).1,
      Table.hasValue (updateGeomList gs tb).2.g_vi_oldnew y := by
  induction gs generalizing tb with
  | nil => intro y hy; cases hy
  | cons g rest ih =>
    intro y hy
    rw [updateGeomList] at hy ⊢
    dsimp only at hy ⊢
    rw [geomsLeaves_cons] at hy
    rcases List.mem_append.mp hy with h1 | h1
    · rw [updateGeomList_table]
      dsimp only
      rw [Geometry.update_geometry_boundaries_char]
      dsimp only
      unfold Geometry.vleaves at h1
      rw [Geometry.update_texture_boundaries, Geometry.update_material_boundaries,
        Geometry.update_geometry_boundaries_char] at h1
      dsimp only at h1
      rw [(NestedArray.mapLeaves_leaves _).1] at h1
      rcases List.mem_map.mp h1 with ⟨x, hx, rfl⟩
      apply Table.hasValue_extendList
      exact Table.hasValue_resolveF (Table.get_extendList_isSome_of_mem hx)
    · exact ih _ y h1

theorem splitUpdateCo_table (co : CityObject) (tb : SplitTables) :
    (splitUpdateCo co tb).2.g_vi_oldnew =
      Table.extendList tb.g_vi_oldnew co.vleaves := by
  unfold splitUpdateCo CityObject.vleaves
  cases co.geometry with
  | none => rfl
  | some gs => exact updateGeomList_table gs tb

theorem splitUpdateCo_values (co : CityObject) (tb : SplitTables) :
    ∀ y ∈ (splitUpdateCo co tb).1.vleaves,
      Table.hasValue (splitUpdateCo co tb).2.g_vi_oldnew y := by
  unfold splitUpdateCo
  cases hg : co.geometry with
  | none =>
    intro y hy
    unfold CityObject.vleaves at hy
    rw [hg] at hy
    cases hy
  | some gs =>
    intro y hy
    unfold CityObject.vleaves at hy
    simp only at hy
    exact updateGeomList_values gs tb y hy

theorem splitChildren_inv (self : CityJSON) (keys : List String) :
    ∀ (acc : CoMap) (tb : SplitTables) (res : CoMap × SplitTables),
    splitChildren self keys acc tb = some res →
    tb.g_vi_oldnew.canonical →
    (∀ y ∈ coMapLeaves acc, tb.g_vi_oldnew.hasValue y) →
    res.2.g_vi_oldnew.canonical ∧
      ∀ y ∈ coMapLeaves res.1, res.2.g_vi_oldnew.hasValue y := by
  induction keys with
  | nil =>
    intro acc tb res h hc hv
    rw [splitChildren] at h
    cases h
    exact ⟨hc, hv⟩
  | cons childkey rest ih =>
    intro acc tb res h hc hv
    rw [splitChildren] at h
    cases hg : CoMap.get self.city_objects childkey with
    | none => rw [hg] at h; cases h
    | some coc =>
      rw [hg] at h
      dsimp only at h
      refine ih _ _ _ h ?_ ?_
      · rw [splitUpdateCo_table]
        exact Table.canonical_extendList hc _
      · intro y hy
        rcases coMapLeaves_insert_sub hy with h1 | h1
        · rw [splitUpdateCo_table]
          exact Table.hasValue_extendList (hv y h1) _
        · exact splitUpdateCo_values coc tb y h1

theorem splitChildren_keys (self : CityJSON) (keys : List String) :
    ∀ (acc : CoMap) (tb : SplitTables) (res : CoMap × SplitTables),
    splitChildren self keys acc tb = some res →
    ∀ k, (CoMap.get res.1 k).isSome ↔ ((CoMap.get acc k).isSome ∨ k ∈ keys) := by
  induction keys with
  | nil =>
    intro acc tb res h k
    rw [splitChildren] at h
    cases h
    simp
  | cons childkey rest ih =>
    intro acc tb res h k
    rw [splitChildren] at h
    cases hg : CoMap.get self.city_objects childkey with
    | none => rw [hg] at h; cases h
    | some coc =>
      rw [hg] at h
      dsimp only at h
      rw [ih _ _ _ h k, CoMap.get_insert_isSome]
      constructor
      · rintro ((rfl | hs) | hm)
        · exact Or.inr (by simp)
        · exact Or.inl hs
        · exact Or.inr (List.mem_cons_of_mem _ hm)
      · rintro (hs | hm)
        · exact Or.inl (Or.inr hs)
        · rcases List.mem_cons.mp hm with rfl | hm2
          · exact Or.inl (Or.inl rfl)
          · exact Or.inr hm2

theorem get_cjfeature_feature_inv {cj : CityJSON} {i : Nat}
    {f : CityJSONFeature} (h : cj.get_cjfeature i = .feature f) :
    ∃ theid co comap tb verts,
      cj.sorted_ids[i]? = some theid ∧
      CoMap.get cj.city_objects theid = some co ∧
      splitChildren cj co.get_children_keys
        (CoMap.insert [] theid (splitUpdateCo co {}).1) (splitUpdateCo co {}).2
        = some (comap, tb) ∧
      sliceByTable tb.g_vi_oldnew cj.vertices ((0 : Int), (0 : Int), (0 : Int))
        = some verts ∧
      f.city_objects = comap ∧ f.vertices = verts := by
  unfold CityJSON.get_cjfeature at h
  cases hs : cj.sorted_ids[i]? with
  | none => rw [hs] at h; cases h
  | some theid =>
    rw [hs] at h
    dsimp only at h
    cases hco : CoMap.get cj.city_objects theid with
    | none => rw [hco] at h; cases h
    | some co =>
      rw [hco] at h
      dsimp only at h
      cases hsc : splitChildren cj co.get_children_keys
          (CoMap.insert [] theid (splitUpdateCo co {}).1)
          (splitUpdateCo co {}).2 with
      | none =>
        rw [show (CityJSONFeature.new.add_co theid
            (splitUpdateCo co {}).1).city_objects =
            CoMap.insert [] theid (splitUpdateCo co {}).1 from rfl] at h
        rw [hsc] at h; cases h
      | some pr =>
        rw [show (CityJSONFeature.new.add_co theid
            (splitUpdateCo co {}).1).city_objects =
            CoMap.insert [] theid (splitUpdateCo co {}).1 from rfl] at h
        rw [hsc] at h
        dsimp only at h
        cases hsl : sliceByTable pr.2.g_vi_oldnew cj.vertices
            ((0 : Int), (0 : Int), (0 : Int)) with
        | none => rw [hsl] at h; cases h
        | some verts =>
          rw [hsl] at h
          dsimp only at h
          refine ⟨theid, co, pr.1, pr.2, verts, rfl, hco, by rw [hsc], hsl, ?_⟩
          cases happ : cj.appearance with
          | none =>
            rw [happ] at h
            cases h
            exact ⟨rfl, rfl⟩
          | some a =>
            rw [happ] at h
            dsimp only at h
            cases hap : sliceAppearance a pr.2.m_oldnew pr.2.t_oldnew
                pr.2.t_v_oldnew with
            | none => rw [hap] at h; cases h
            | some acjf =>
              rw [hap] at h
              cases h
              exact ⟨rfl, rfl⟩

theorem get_cjfeature_bounds {cj : CityJSON} {i : Nat} {f : CityJSONFeature}
    (h : cj.get_cjfeature i = .feature f) : f.boundsValid := by
  rcases get_cjfeature_feature_inv h with
    ⟨theid, co, comap, tb, verts, _hs, _hco, hsc, hsl, hfc, hfv⟩
  have h0c : (splitUpdateCo co {}).2.g_vi_oldnew.canonical := by
    rw [splitUpdateCo_table]
    exact Table.canonical_extendList Table.canonical_nil _
  have h0v : ∀ y ∈ coMapLeaves (CoMap.insert [] theid (splitUpdateCo co {}).1),
      (splitUpdateCo co {}).2.g_vi_oldnew.hasValue y := by
    intro y hy
    rcases coMapLeaves_insert_sub hy with h1 | h1
    · cases h1
    · exact splitUpdateCo_values co {} y h1
  obtain ⟨hc, hv⟩ :=
    splitChildren_inv cj co.get_children_keys _ _ _ hsc h0c h0v
  intro x hx
  unfold CityJSONFeature.vleaves at hx
  rw [hfc] at hx
  have hlt := Table.hasValue_lt hc (hv x hx)
  rw [hfv, sliceByTable_length hsl]
  exact hlt

theorem CityJSON.add_material_preserves {self : CityJSON}
    {jm : MaterialObject} {p : CityJSON × Nat}
    (h : self.add_material jm = some p) :
    p.1.city_objects = self.city_objects ∧ p.1.vertices = self.vertices := by
  unfold CityJSON.add_material at h
  cases happ : self.appearance with
  | some x =>
    rw [happ] at h
    dsimp only at h
    cases hq : x.add_material jm with
    | none => rw [hq] at h; cases h
    | some q => rw [hq] at h; cases h; exact ⟨rfl, rfl⟩
  | none =>
    rw [happ] at h
    dsimp only at h
    cases hq : Appearance.new.add_material jm with
    | none => rw [hq] at h; cases h
    | some q => rw [hq] at h; cases h; exact ⟨rfl, rfl⟩

theorem CityJSON.add_texture_preserves {self : CityJSON}
    {jm : TextureObject} {p : CityJSON × Nat}
    (h : self.add_texture jm = some p) :
    p.1.city_objects = self.city_objects ∧ p.1.vertices = self.vertices := by
  unfold CityJSON.add_texture at h
  cases happ : self.appearance with
  | some x =>
    rw [happ] at h
    dsimp only at h
    cases hq : x.add_texture jm with
    | none => rw [hq] at h; cases h
    | some q => rw [hq] at h; cases h; exact ⟨rfl, rfl⟩
  | none =>
    rw [happ] at h
    dsimp only at h
    cases hq : Appearance.new.add_texture jm with
    | none => rw [hq] at h; cases h
    | some q => rw [hq] at h; cases h; exact ⟨rfl, rfl⟩

theorem addMaterialsLoop_preserves :
    ∀ (ms : List MaterialObject) (doc : CityJSON) (i : Nat) (tbl : Table)
      (r : CityJSON × Table), addMaterialsLoop doc ms i tbl = some r →
      r.1.city_objects = doc.city_objects ∧ r.1.vertices = doc.vertices := by
  intro ms
  induction ms with
  | nil =>
    intro doc i tbl r h
    rw [addMaterialsLoop] at h
    cases h
    exact ⟨rfl, rfl⟩
  | cons m rest ih =>
    intro doc i tbl r h
    rw [addMaterialsLoop] at h
    rcases Option.bind_eq_some.mp h with ⟨p, hp, hrest⟩
    obtain ⟨h1, h2⟩ := CityJSON.add_material_preserves hp
    obtain ⟨h3, h4⟩ := ih p.1 (i + 1) (Table.insert tbl i p.2) r hrest
    exact ⟨h3.trans h1, h4.trans h2⟩

theorem addTexturesLoop_preserves :
    ∀ (ms : List TextureObject) (doc : CityJSON) (i : Nat) (tbl : Table)
      (r : CityJSON × Table), addTexturesLoop doc ms i tbl = some r →
      r.1.city_objects = doc.city_objects ∧ r.1.vertices = doc.vertices := by
  intro ms
  induction ms with
  | nil =>
    intro doc i tbl r h
    rw [addTexturesLoop] at h
    cases h
    exact ⟨rfl, rfl⟩
  | cons m rest ih =>
    intro doc i tbl r h
    rw [addTexturesLoop] at h
    rcases Option.bind_eq_some.mp h with ⟨p, hp, hrest⟩
    obtain ⟨h1, h2⟩ := CityJSON.add_texture_preserves hp
    obtain ⟨h3, h4⟩ := ih p.1 (i + 1) (Table.insert tbl i p.2) r hrest
    exact ⟨h3.trans h1, h4.trans h2⟩

theorem CityJSON.add_vertices_texture_preserves (self : CityJSON)
    (vs : List (ℚ × ℚ)) :
    (self.add_vertices_texture vs).city_objects = self.city_objects ∧
      (self.add_vertices_texture vs).vertices = self.vertices := by
  unfold CityJSON.add_vertices_texture
  cases self.appearance <;> exact ⟨rfl, rfl⟩

theorem mergeGeomList_leaves (gs : List Geometry) (tb : MergeTables)
    (g_off t_off : Nat) :
    geomsLeaves (mergeGeomList gs tb g_off t_off).1 =
      (geomsLeaves gs).map (fun x => x + g_off) := by
  induction gs generalizing tb with
  | nil => rfl
  | cons g rest ih =>
    rw [mergeGeomList]
    dsimp only
    rw [geomsLeaves_cons, geomsLeaves_cons, List.map_append, ih]
    congr 1
    unfold Geometry.vleaves
    rw [Geometry.update_texture_boundaries, Geometry.update_material_boundaries]
    show (g.boundaries.offset_geometry_boundaries g_off).leaves = _
    exact (offset_leaves g_off).1 g.boundaries

theorem coMapLeaves_cons (p : String × CityObject) (rest : CoMap) :
    coMapLeaves (p :: rest) = p.2.vleaves ++ coMapLeaves rest := by
  simp [coMapLeaves]

theorem mergeCoList_vertices (cos : CoMap) :
    ∀ (doc : CityJSON) (tb : MergeTables) (g_off t_off : Nat),
    (mergeCoList doc cos tb g_off t_off).1.vertices = doc.vertices := by
  induction cos with
  | nil => intro doc tb g_off t_off; rfl
  | cons p rest ih =>
    intro doc tb g_off t_off
    rw [mergeCoList]
    dsimp only
    rw [ih]
    rfl

theorem mergeCoList_leaves (cos : CoMap) :
    ∀ (doc : CityJSON) (tb : MergeTables) (g_off t_off : Nat),
    ∀ y ∈ coMapLeaves (mergeCoList doc cos tb g_off t_off).1.city_objects,
      y ∈ coMapLeaves doc.city_objects ∨
        ∃ z ∈ coMapLeaves cos, y = z + g_off := by
  induction cos with
  | nil =>
    intro doc tb g_off t_off y hy
    exact Or.inl hy
  | cons p rest ih =>
    intro doc tb g_off t_off y hy
    rw [mergeCoList] at hy
    dsimp only at hy
    rcases ih _ _ _ _ y hy with h1 | h1
    · unfold CityJSON.add_co at h1
      dsimp only at h1
      rcases coMapLeaves_insert_sub h1 with h2 | h2
      · exact Or.inl h2
      · right
        cases hg : p.2.geometry with
        | none =>
          rw [hg] at h2
          dsimp only at h2
          unfold CityObject.vleaves at h2
          rw [hg] at h2
          cases h2
        | some gs =>
          rw [hg] at h2
          dsimp only at h2
          unfold CityObject.vleaves at h2
          dsimp only at h2
          rw [mergeGeomList_leaves] at h2
          rcases List.mem_map.mp h2 with ⟨z, hz, rfl⟩
          refine ⟨z, ?_, rfl⟩
          rw [coMapLeaves_cons]
          apply List.mem_append_left
          unfold CityObject.vleaves
          rw [hg]
          exact hz
    · right
      rcases h1 with ⟨z, hz, rfl⟩
      refine ⟨z, ?_, rfl⟩
      rw [coMapLeaves_cons]
      exact List.mem_append_right _ hz

theorem addCjfeatureCore_inv {self : CityJSON} {cjf : CityJSONFeature}
    {tb0 : MergeTables} {r : CityJSON × MergeTables}
    (h : addCjfeatureCore self cjf tb0 = some r) :
    ∃ s1 : CityJSON × MergeTables × Nat,
      s1.1.city_objects = self.city_objects ∧
      s1.1.vertices = self.vertices ∧
      r.1 = { (mergeCoList s1.1 cjf.city_objects s1.2.1 self.vertices.length s1.2.2).1 with
              vertices := (mergeCoList s1.1 cjf.city_objects s1.2.1 self.vertices.length s1.2.2).1.vertices ++ cjf.vertices,
              sorted_ids := (mergeCoList s1.1 cjf.city_objects s1.2.1 self.vertices.length s1.2.2).1.sorted_ids ++ [cjf.id] } := by
  unfold addCjfeatureCore at h
  dsimp only at h
  cases happ : cjf.appearance with
  | none =>
    rw [happ] at h
    dsimp only at h
    cases h
    exact ⟨(self, tb0, 0), rfl, rfl, rfl⟩
  | some app =>
    rw [happ] at h
    dsimp only at h
    cases hp1 : (match app.materials with
        | some ms => addMaterialsLoop self ms 0 tb0.m_oldnew
        | none => some (self, tb0.m_oldnew)) with
    | none => rw [hp1] at h; cases h
    | some p1 =>
      rw [hp1] at h
      dsimp only at h
      have hp1p : p1.1.city_objects = self.city_objects ∧
          p1.1.vertices = self.vertices := by
        cases hm : app.materials with
        | some ms =>
          rw [hm] at hp1
          exact addMaterialsLoop_preserves ms self 0 tb0.m_oldnew p1 hp1
        | none => rw [hm] at hp1; cases hp1; exact ⟨rfl, rfl⟩
      cases hp2 : (match app.textures with
          | some ts => addTexturesLoop p1.1 ts 0 tb0.t_oldnew
          | none => some (p1.1, tb0.t_oldnew)) with
      | none => rw [hp2] at h; cases h
      | some p2 =>
        rw [hp2] at h
        dsimp only at h
        have hp2p : p2.1.city_objects = p1.1.city_objects ∧
            p2.1.vertices = p1.1.vertices := by
          cases ht : app.textures with
          | some ts =>
            rw [ht] at hp2
            exact addTexturesLoop_preserves ts p1.1 0 tb0.t_oldnew p2 hp2
          | none => rw [ht] at hp2; cases hp2; exact ⟨rfl, rfl⟩
        cases hvt : app.vertices_texture with
        | some vt =>
          rw [hvt] at h
          dsimp only at h
          cases h
          refine ⟨(p2.1.add_vertices_texture vt,
            { m_oldnew := p1.2, t_oldnew := p2.2,
              t_v_oldnew := tb0.t_v_oldnew }, vt.length), ?_, ?_, rfl⟩
          · rw [show (p2.1.add_vertices_texture vt, _, _).1 = p2.1.add_vertices_texture vt from rfl]
            rw [(CityJSON.add_vertices_texture_preserves p2.1 vt).1, hp2p.1, hp1p.1]
          · rw [show (p2.1.add_vertices_texture vt, _, _).1 = p2.1.add_vertices_texture vt from rfl]
            rw [(CityJSON.add_vertices_texture_preserves p2.1 vt).2, hp2p.2, hp1p.2]
        | none =>
          rw [hvt] at h
          dsimp only at h
          cases h
          exact ⟨(p2.1,
            { m_oldnew := p1.2, t_oldnew := p2.2,
              t_v_oldnew := tb0.t_v_oldnew }, 0),
            by rw [show (p2.1, _, _).1 = p2.1 from rfl, hp2p.1, hp1p.1],
            by rw [show (p2.1, _, _).1 = p2.1 from rfl, hp2p.2, hp1p.2], rfl⟩

theorem add_cjfeature_bounds {cj : CityJSON} {f : CityJSONFeature}
    {cj' : CityJSON} (hd : cj.boundsValid) (hf : f.boundsValid)
    (h : cj.add_cjfeature f = some cj') : cj'.boundsValid := by
  unfold CityJSON.add_cjfeature at h
  rcases Option.map_eq_some'.mp h with ⟨r, hr, rfl⟩
  rcases addCjfeatureCore_inv hr with ⟨s1, hco, hv, hshape⟩
  rw [hshape]
  intro y hy
  unfold CityJSON.vleaves at hy
  dsimp only at hy
  dsimp only
  rw [List.length_append, mergeCoList_vertices, hv]
  rcases mergeCoList_leaves f.city_objects s1.1 s1.2.1 cj.vertices.length
      s1.2.2 y hy with h1 | ⟨z, hz, rfl⟩
  · rw [hco] at h1
    have := hd y h1
    omega
  · have := hf z hz
    omega

theorem Table.get_insert_self (t : Table) (k v : Nat) :
    Table.get (Table.insert t k v) k = some v := by
  unfold Table.insert
  by_cases hk : (Table.get t k).isSome
  · rw [if_pos hk]
    unfold Table.get at hk ⊢
    induction t with
    | nil => simp at hk
    | cons p rest ih =>
      cases hp : (p.1 == k) with
      | true =>
        rw [List.map_cons, if_pos hp]
        rw [List.find?_cons]
        simp
      | false =>
        rw [List.map_cons, if_neg (by simp [hp])]
        rw [List.find?_cons, hp]
        rw [List.find?_cons, hp] at hk
        exact ih hk
  · rw [if_neg hk]
    unfold Table.get at hk ⊢
    rw [List.find?_append]
    cases hf : List.find? (fun p => p.1 == k) t with
    | some p => rw [hf] at hk; simp at hk
    | none => simp [List.find?]

theorem find?_replace_ne (t : List (Nat × Nat)) {k k' : Nat} (v : Nat)
    (h : k' ≠ k) :
    List.find? (fun p => p.1 == k')
        (t.map (fun p => if (p.1 == k) = true then (k, v) else p)) =
      List.find? (fun p => p.1 == k') t := by
  induction t with
  | nil => rfl
  | cons p rest ih =>
    cases hp : (p.1 == k) with
    | true =>
      have h1 : (((k, v) : Nat × Nat).1 == k') = false := by
        simp only [beq_eq_false_iff_ne]
        omega
      have h2 : (p.1 == k') = false := by
        simp only [beq_iff_eq] at hp
        simp only [beq_eq_false_iff_ne, hp]
        omega
      simp only [List.map_cons, if_pos hp, List.find?_cons, h1, h2]
      exact ih
    | false =>
      simp only [List.map_cons,
        if_neg (by simp [hp] : ¬ (p.1 == k) = true), List.find?_cons]
      cases hq : (p.1 == k') with
      | true => rfl
      | false => exact ih

theorem Table.get_insert_of_ne (t : Table) {k k' : Nat} (h : k' ≠ k) (v : Nat) :
    Table.get (Table.insert t k v) k' = Table.get t k' := by
  unfold Table.insert
  by_cases hk : (Table.get t k).isSome
  · rw [if_pos hk]
    unfold Table.get
    rw [find?_replace_ne t v h]
  · rw [if_neg hk]
    unfold Table.get
    rw [List.find?_append]
    have hsingle : List.find? (fun p => p.1 == k') [(k, v)] = none := by
      have h1 : (((k, v) : Nat × Nat).1 == k') = false := by
        simp only [beq_eq_false_iff_ne]
        omega
      simp only [List.find?_cons, h1, List.find?_nil]
    rw [hsingle]
    cases hf : List.find? (fun p => p.1 == k') t with
    | some p => rfl
    | none => rfl

theorem Table.mem_insert {t : Table} {k v : Nat} {p : Nat × Nat}
    (h : p ∈ Table.insert t k v) : p ∈ t ∨ p = (k, v) := by
  unfold Table.insert at h
  by_cases hk : (Table.get t k).isSome
  · rw [if_pos hk] at h
    rcases List.mem_map.mp h with ⟨q, hq, hpq⟩
    by_cases hqk : q.1 == k
    · rw [if_pos hqk] at hpq; right; exact hpq.symm
    · rw [if_neg hqk] at hpq; left; exact hpq ▸ hq
  · rw [if_neg hk] at h
    rcases List.mem_append.mp h with h1 | h1
    · left; exact h1
    · right; simpa using h1

theorem Table.get_mem {t : Table} {k v : Nat} (h : Table.get t k = some v) :
    ∃ p ∈ t, p.2 = v := by
  unfold Table.get at h
  cases hf : List.find? (fun p => p.1 == k) t with
  | none => rw [hf] at h; simp at h
  | some p =>
    rw [hf] at h
    refine ⟨p, List.mem_of_find?_eq_some hf, ?_⟩
    simpa using h

theorem vkeyGet_mem {hm : List (Vertex × Nat)} {v : Vertex} {x : Nat}
    (h : vkeyGet hm v = some x) : ∃ q ∈ hm, q.2 = x := by
  unfold vkeyGet at h
  cases hf : List.find? (fun p => p.1 == v) hm with
  | none => rw [hf] at h; simp at h
  | some q =>
    rw [hf] at h
    exact ⟨q, List.mem_of_find?_eq_some hf, by simpa using h⟩

theorem vkeyGet_append_isSome (hm : List (Vertex × Nat)) (v w : Vertex)
    (n : Nat) :
    (vkeyGet (hm ++ [(v, n)]) w).isSome ↔
      (vkeyGet hm w).isSome ∨ w = v := by
  unfold vkeyGet
  rw [List.find?_append]
  rw [Option.isSome_map', Option.isSome_map']
  cases hf : List.find? (fun p => p.1 == w) hm with
  | some q => simp
  | none =>
    simp only [Option.none_or, Option.isSome_none, Bool.false_eq_true,
      false_or]
    rw [List.find?_cons]
    cases hv : (((v, n) : Vertex × Nat).1 == w) with
    | true =>
      have hwv : w = v := by
        have hv2 : v = w := by simpa using hv
        exact hv2.symm
      simp [hwv]
    | false =>
      have hwv : ¬ w = v := by
        intro h1
        rw [h1] at hv
        simp at hv
      simp [hwv]

theorem dedupScan_get_preserved :
    ∀ (vs : List Vertex) (i : Nat) (hm : List (Vertex × Nat)) (ids : Table)
      (verts : List Vertex), (∀ p ∈ ids, p.1 < i) → ∀ {k v' : Nat},
      Table.get ids k = some v' →
      Table.get (dedupScan vs i hm ids verts).1 k = some v' := by
  intro vs
  induction vs with
  | nil =>
    intro i hm ids verts _ k v' hk
    exact hk
  | cons v rest ih =>
    intro i hm ids verts hlt k v' hk
    have hkk : k ≠ i := by
      have hsome : (Table.get ids k).isSome := by simp [hk]
      rw [Table.get_isSome_iff_mem_keys] at hsome
      rcases List.mem_map.mp hsome with ⟨p, hp, rfl⟩
      exact Nat.ne_of_lt (hlt p hp)
    rw [dedupScan]
    cases hv : vkeyGet hm v with
    | some x =>
      dsimp only
      refine ih _ _ _ _ (fun p hp => ?_)
        (by rw [Table.get_insert_of_ne ids hkk x]; exact hk)
      rcases Table.mem_insert hp with h1 | rfl
      · exact Nat.lt_succ_of_lt (hlt p h1)
      · exact Nat.lt_succ_self i
    | none =>
      dsimp only
      refine ih _ _ _ _ (fun p hp => ?_)
        (by rw [Table.get_insert_of_ne ids hkk verts.length]; exact hk)
      rcases Table.mem_insert hp with h1 | rfl
      · exact Nat.lt_succ_of_lt (hlt p h1)
      · exact Nat.lt_succ_self i

theorem dedupScan_covers :
    ∀ (vs : List Vertex) (i : Nat) (hm : List (Vertex × Nat)) (ids : Table)
      (verts : List Vertex), (∀ p ∈ ids, p.1 < i) → ∀ m, m < vs.length →
      (Table.get (dedupScan vs i hm ids verts).1 (i + m)).isSome := by
  intro vs
  induction vs with
  | nil =>
    intro i hm ids verts _ m hmlt
    simp at hmlt
  | cons v rest ih =>
    intro i hm ids verts hlt m hmlt
    rw [dedupScan]
    have hkeys : ∀ (x : Nat) (p : Nat × Nat), p ∈ Table.insert ids i x →
        p.1 < i + 1 := by
      intro x p hp
      rcases Table.mem_insert hp with h1 | rfl
      · exact Nat.lt_succ_of_lt (hlt p h1)
      · exact Nat.lt_succ_self i
    cases hv : vkeyGet hm v with
    | some x =>
      dsimp only
      cases m with
      | zero =>
        have hpres := dedupScan_get_preserved rest (i + 1) hm
          (Table.insert ids i x) verts (hkeys x) (Table.get_insert_self ids i x)
        rw [Nat.add_zero]
        simp [hpres]
      | succ m' =>
        have := ih (i + 1) hm (Table.insert ids i x) verts (hkeys x) m'
          (by simpa using Nat.lt_of_succ_lt_succ hmlt)
        rw [show i + (m' + 1) = (i + 1) + m' by omega]
        exact this
    | none =>
      dsimp only
      cases m with
      | zero =>
        have hpres := dedupScan_get_preserved rest (i + 1) (hm ++ [(v, verts.length)])
          (Table.insert ids i verts.length) (verts ++ [v])
          (hkeys verts.length) (Table.get_insert_self ids i verts.length)
        rw [Nat.add_zero]
        simp [hpres]
      | succ m' =>
        have := ih (i + 1) (hm ++ [(v, verts.length)])
          (Table.insert ids i verts.length) (verts ++ [v])
          (hkeys verts.length) m' (by simpa using Nat.lt_of_succ_lt_succ hmlt)
        rw [show i + (m' + 1) = (i + 1) + m' by omega]
        exact this

theorem dedupScan_values_bound :
    ∀ (vs : List Vertex) (i : Nat) (hm : List (Vertex × Nat)) (ids : Table)
      (verts : List Vertex), (∀ p ∈ hm, p.2 < verts.length) →
      (∀ p ∈ ids, p.2 < verts.length) →
      ∀ p ∈ (dedupScan vs i hm ids verts).1,
        p.2 < (dedupScan vs i hm ids verts).2.length := by
  intro vs
  induction vs with
  | nil =>
    intro i hm ids verts _ hv p hp
    exact hv p hp
  | cons v rest ih =>
    intro i hm ids verts hh hv p hp
    rw [dedupScan] at hp ⊢
    cases hvk : vkeyGet hm v with
    | some x =>
      rw [hvk] at hp
      dsimp only at hp ⊢
      have hx : x < verts.length := by
        rcases vkeyGet_mem hvk with ⟨q, hq, rfl⟩
        exact hh q hq
      refine ih _ _ _ _ hh (fun q hq => ?_) p hp
      rcases Table.mem_insert hq with h1 | rfl
      · exact hv q h1
      · exact hx
    | none =>
      rw [hvk] at hp
      dsimp only at hp ⊢
      refine ih _ _ _ _ (fun q hq => ?_) (fun q hq => ?_) p hp
      · rcases List.mem_append.mp hq with h1 | h1
        · have := hh q h1
          rw [List.length_append]
          omega
        · have : q = (v, verts.length) := by simpa using h1
          rw [this, List.length_append]
          simp
      · rcases Table.mem_insert hq with h1 | rfl
        · have := hv q h1
          rw [List.length_append]
          omega
        · rw [List.length_append]
          simp

theorem dedupScan_nodup :
    ∀ (vs : List Vertex) (i : Nat) (hm : List (Vertex × Nat)) (ids : Table)
      (verts : List Vertex), verts.Nodup →
      (∀ w, (vkeyGet hm w).isSome ↔ w ∈ verts) →
      (dedupScan vs i hm ids verts).2.Nodup := by
  intro vs
  induction vs with
  | nil =>
    intro i hm ids verts hnd _
    exact hnd
  | cons v rest ih =>
    intro i hm ids verts hnd hsync
    rw [dedupScan]
    cases hvk : vkeyGet hm v with
    | some x =>
      dsimp only
      exact ih _ _ _ _ hnd hsync
    | none =>
      dsimp only
      have hnotin : v ∉ verts := by
        intro hmem
        have := (hsync v).mpr hmem
        rw [hvk] at this
        simp at this
      refine ih _ _ _ _ ?_ ?_
      · rw [List.nodup_append]
        refine ⟨hnd, by simp, ?_⟩
        intro a ha hb
        have : a = v := by simpa using hb
        exact hnotin (this ▸ ha)
      · intro w
        rw [vkeyGet_append_isSome, hsync w]
        simp

theorem dedupScan_identity :
    ∀ (vs : List Vertex), vs.Nodup →
      ∀ (i : Nat) (hm : List (Vertex × Nat)) (ids : Table)
        (verts : List Vertex), (∀ w ∈ vs, vkeyGet hm w = none) →
        (∀ p ∈ ids, p.1 < i) →
        (dedupScan vs i hm ids verts).2 = verts ++ vs ∧
        ∀ m, m < vs.length →
          Table.get (dedupScan vs i hm ids verts).1 (i + m) =
            some (verts.length + m) := by
  intro vs
  induction vs with
  | nil =>
    intro _ i hm ids verts _ _
    exact ⟨by simp [dedupScan], by intro m hm2; simp at hm2⟩
  | cons v rest ih =>
    intro hnd i hm ids verts hdis hlt
    rw [dedupScan]
    rw [hdis v (by simp)]
    dsimp only
    have hkeys : ∀ p ∈ Table.insert ids i verts.length, p.1 < i + 1 := by
      intro p hp
      rcases Table.mem_insert hp with h1 | rfl
      · exact Nat.lt_succ_of_lt (hlt p h1)
      · exact Nat.lt_succ_self i
    have hdis2 : ∀ w ∈ rest, vkeyGet (hm ++ [(v, verts.length)]) w = none := by
      intro w hw
      have h1 : vkeyGet hm w = none := hdis w (List.mem_cons_of_mem _ hw)
      have h2 : w ≠ v := by
        intro hwv
        rw [hwv] at hw
        exact (List.nodup_cons.mp hnd).1 hw
      unfold vkeyGet at h1 ⊢
      rw [List.find?_append]
      cases hf : List.find? (fun p => p.1 == w) hm with
      | some q => rw [hf] at h1; simp at h1
      | none =>
        have h3 : (((v, verts.length) : Vertex × Nat).1 == w) = false := by
          simp only [beq_eq_false_iff_ne]
          intro hvw
          exact h2 hvw.symm
        simp [List.find?_cons, h3]
    obtain ⟨ihv, ihg⟩ := ih (List.nodup_cons.mp hnd).2 (i + 1)
      (hm ++ [(v, verts.length)]) (Table.insert ids i verts.length)
      (verts ++ [v]) hdis2 hkeys
    constructor
    · rw [ihv, List.append_assoc]
      rfl
    · intro m hmlt
      cases m with
      | zero =>
        have hpres := dedupScan_get_preserved rest (i + 1)
          (hm ++ [(v, verts.length)]) (Table.insert ids i verts.length)
          (verts ++ [v]) hkeys (Table.get_insert_self ids i verts.length)
        rw [Nat.add_zero, Nat.add_zero]
        exact hpres
      | succ m' =>
        have := ihg m' (by simpa using Nat.lt_of_succ_lt_succ hmlt)
        rw [show i + (m' + 1) = (i + 1) + m' by omega]
        rw [this, List.length_append]
        congr 1
        simp
        omega

theorem update_geometry_allhit {g : Geometry} {t : Table}
    (hall : ∀ x ∈ g.vleaves, (Table.get t x).isSome) :
    g.update_geometry_boundaries t =
      ({ g with boundaries := NestedArray.mapLeaves (resolveF t) g.boundaries },
       t) := by
  rw [Geometry.update_geometry_boundaries_char,
    Table.extendList_of_all_isSome hall]

theorem rdvGeomList_allhit (gs : List Geometry) (t : Table)
    (hall : ∀ x ∈ geomsLeaves gs, (Table.get t x).isSome) :
    (rdvGeomList gs t).2 = t ∧
    ∀ y ∈ geomsLeaves (rdvGeomList gs t).1, ∃ x, Table.get t x = some y := by
  induction gs with
  | nil => exact ⟨rfl, by intro y hy; cases hy⟩
  | cons g rest ih =>
    have hg : ∀ x ∈ g.vleaves, (Table.get t x).isSome := by
      intro x hx
      exact hall x (by rw [geomsLeaves_cons]; exact List.mem_append_left _ hx)
    have hrest : ∀ x ∈ geomsLeaves rest, (Table.get t x).isSome := by
      intro x hx
      exact hall x (by rw [geomsLeaves_cons]; exact List.mem_append_right _ hx)
    obtain ⟨ih1, ih2⟩ := ih hrest
    rw [rdvGeomList]
    rw [update_geometry_allhit hg]
    dsimp only
    constructor
    · exact ih1
    · intro y hy
      rw [geomsLeaves_cons] at hy
      rcases List.mem_append.mp hy with h1 | h1
      · unfold Geometry.vleaves at h1
        dsimp only at h1
        rw [(NestedArray.mapLeaves_leaves _).1] at h1
        rcases List.mem_map.mp h1 with ⟨x, hx, rfl⟩
        cases hgx : Table.get t x with
        | none =>
          have := hg x hx
          rw [hgx] at this
          simp at this
        | some w => exact ⟨x, by rw [resolveF, hgx]; exact hgx ▸ rfl⟩
      · exact ih2 y h1

theorem rdvCoList_allhit (m : CoMap) (t : Table)
    (hall : ∀ x ∈ coMapLeaves m, (Table.get t x).isSome) :
    (rdvCoList m t).2 = t ∧
    ∀ y ∈ coMapLeaves (rdvCoList m t).1, ∃ x, Table.get t x = some y := by
  induction m with
  | nil => exact ⟨rfl, by intro y hy; cases hy⟩
  | cons p rest ih =>
    have hp : ∀ x ∈ p.2.vleaves, (Table.get t x).isSome := by
      intro x hx
      exact hall x (by rw [coMapLeaves_cons]; exact List.mem_append_left _ hx)
    have hrest : ∀ x ∈ coMapLeaves rest, (Table.get t x).isSome := by
      intro x hx
      exact hall x (by rw [coMapLeaves_cons]; exact List.mem_append_right _ hx)
    obtain ⟨ih1, ih2⟩ := ih hrest
    rw [rdvCoList]
    cases hg : p.2.geometry with
    | none =>
      dsimp only
      rw [ih1]
      refine ⟨rfl, ?_⟩
      intro y hy
      rw [coMapLeaves_cons] at hy
      rcases List.mem_append.mp hy with h1 | h1
      · unfold CityObject.vleaves at h1
        rw [hg] at h1
        cases h1
      · exact ih2 y h1
    | some gs =>
      dsimp only
      have hgl : ∀ x ∈ geomsLeaves gs, (Table.get t x).isSome := by
        intro x hx
        apply hp
        unfold CityObject.vleaves
        rw [hg]
        exact hx
      obtain ⟨hr1, hr2⟩ := rdvGeomList_allhit gs t hgl
      rw [hr1, ih1]
      refine ⟨rfl, ?_⟩
      intro y hy
      rw [coMapLeaves_cons] at hy
      rcases List.mem_append.mp hy with h1 | h1
      · unfold CityObject.vleaves at h1
        dsimp only at h1
        exact hr2 y h1
      · exact ih2 y h1

theorem mapLeaves_resolveF_id {b : Boundaries} {t : Table}
    (hid : ∀ x ∈ b.leaves, Table.get t x = some x) :
    NestedArray.mapLeaves (resolveF t) b = b := by
  apply (NestedArray.mapLeaves_self _).1
  intro x hx
  rw [resolveF, hid x hx]
  rfl

theorem rdvGeomList_id (gs : List Geometry) (t : Table)
    (hid : ∀ x ∈ geomsLeaves gs, Table.get t x = some x) :
    rdvGeomList gs t = (gs, t) := by
  induction gs with
  | nil => rfl
  | cons g rest ih =>
    have hg : ∀ x ∈ g.vleaves, Table.get t x = some x := by
      intro x hx
      exact hid x (by rw [geomsLeaves_cons]; exact List.mem_append_left _ hx)
    have hrest : ∀ x ∈ geomsLeaves rest, Table.get t x = some x := by
      intro x hx
      exact hid x (by rw [geomsLeaves_cons]; exact List.mem_append_right _ hx)
    rw [rdvGeomList]
    rw [update_geometry_allhit (fun x hx => by simp [hg x hx])]
    dsimp only
    rw [ih hrest]
    rw [mapLeaves_resolveF_id hg]

theorem rdvCoList_id (m : CoMap) (t : Table)
    (hid : ∀ x ∈ coMapLeaves m, Table.get t x = some x) :
    rdvCoList m t = (m, t) := by
  induction m with
  | nil => rfl
  | cons p rest ih =>
    have hp : ∀ x ∈ p.2.vleaves, Table.get t x = some x := by
      intro x hx
      exact hid x (by rw [coMapLeaves_cons]; exact List.mem_append_left _ hx)
    have hrest : ∀ x ∈ coMapLeaves rest, Table.get t x = some x := by
      intro x hx
      exact hid x (by rw [coMapLeaves_cons]; exact List.mem_append_right _ hx)
    rw [rdvCoList]
    cases hg : p.2.geometry with
    | none =>
      dsimp only
      rw [ih hrest]
    | some gs =>
      dsimp only
      have hgl : ∀ x ∈ geomsLeaves gs, Table.get t x = some x := by
        intro x hx
        apply hp
        unfold CityObject.vleaves
        rw [hg]
        exact hx
      rw [rdvGeomList_id gs t hgl]
      dsimp only
      rw [ih hrest]
      have hobj : ({ p.2 with geometry := some gs } : CityObject) = p.2 := by
        rw [← hg]
      rw [hobj]

theorem rdv_valid {cj : CityJSON} (h : cj.boundsValid) :
    (cj.remove_duplicate_vertices).boundsValid ∧
      (cj.remove_duplicate_vertices).vertices.Nodup := by
  unfold CityJSON.remove_duplicate_vertices
  dsimp only
  have hall : ∀ x ∈ coMapLeaves cj.city_objects,
      (Table.get (dedupScan cj.vertices 0 [] [] []).1 x).isSome := by
    intro x hx
    have hxlt := h x hx
    have := dedupScan_covers cj.vertices 0 [] [] [] (by intro p hp; cases hp)
      x hxlt
    simpa using this
  obtain ⟨hr1, hr2⟩ := rdvCoList_allhit cj.city_objects
    (dedupScan cj.vertices 0 [] [] []).1 hall
  constructor
  · intro y hy
    unfold CityJSON.vleaves at hy
    dsimp only at hy
    rcases hr2 y hy with ⟨x, hx⟩
    rcases Table.get_mem hx with ⟨q, hq, rfl⟩
    exact dedupScan_values_bound cj.vertices 0 [] [] []
      (by intro p hp; cases hp) (by intro p hp; cases hp) q hq
  · exact dedupScan_nodup cj.vertices 0 [] [] [] (by simp) (by intro w; simp [vkeyGet])

theorem rdv_idempotent {cj : CityJSON} (h : cj.boundsValid) :
    (cj.remove_duplicate_vertices).remove_duplicate_vertices =
      cj.remove_duplicate_vertices := by
  obtain ⟨hb, hnd⟩ := rdv_valid h
  generalize cj.remove_duplicate_vertices = d1 at hb hnd ⊢
  unfold CityJSON.remove_duplicate_vertices
  dsimp only
  obtain ⟨hid1, hid2⟩ := dedupScan_identity
    d1.vertices hnd 0 [] [] []
    (by intro w hw; simp [vkeyGet]) (by intro p hp; cases hp)
  have hgetid : ∀ x ∈ coMapLeaves d1.city_objects,
      Table.get (dedupScan d1.vertices 0 [] [] []).1 x
        = some x := by
    intro x hx
    have hxlt := hb x hx
    have := hid2 x hxlt
    simpa using this
  rw [rdvCoList_id _ _ hgetid]
  dsimp only
  rw [hid1]
  simp

theorem foldl_min_le (l : List Int) (a : Int) :
    List.foldl min a l ≤ a ∧ ∀ x ∈ l, List.foldl min a l ≤ x := by
  induction l generalizing a with
  | nil => exact ⟨le_refl a, by intro x hx; cases hx⟩
  | cons y ys ih =>
    obtain ⟨ih1, ih2⟩ := ih (min a y)
    refine ⟨le_trans ih1 (min_le_left a y), ?_⟩
    intro x hx
    rcases List.mem_cons.mp hx with rfl | hm
    · exact le_trans ih1 (min_le_right a x)
    · exact ih2 x hm

theorem foldl_min_mem (l : List Int) (a : Int) :
    List.foldl min a l = a ∨ List.foldl min a l ∈ l := by
  induction l generalizing a with
  | nil => exact Or.inl rfl
  | cons y ys ih =>
    rcases ih (min a y) with h1 | h1
    · rw [List.foldl_cons, h1]
      rcases le_or_lt a y with h2 | h2
      · exact Or.inl (min_eq_left h2)
      · right
        rw [min_eq_right (le_of_lt h2)]
        exact List.mem_cons_self y ys
    · exact Or.inr (List.mem_cons_of_mem _ h1)

theorem minsOf_eq (vs : List Vertex) :
    minsOf vs = (List.foldl min i64MAX (vs.map (fun v => v.1)),
      List.foldl min i64MAX (vs.map (fun v => v.2.1)),
      List.foldl min i64MAX (vs.map (fun v => v.2.2))) := by
  unfold minsOf
  have step : ∀ (l : List Vertex) (a b c : Int),
      l.foldl (fun m v =>
        (if v.1 < m.1 then v.1 else m.1,
         if v.2.1 < m.2.1 then v.2.1 else m.2.1,
         if v.2.2 < m.2.2 then v.2.2 else m.2.2)) (a, b, c) =
      (List.foldl min a (l.map (fun v => v.1)),
       List.foldl min b (l.map (fun v => v.2.1)),
       List.foldl min c (l.map (fun v => v.2.2))) := by
    intro l
    induction l with
    | nil => intro a b c; rfl
    | cons v rest ih =>
      intro a b c
      rw [List.foldl_cons, List.map_cons, List.map_cons, List.map_cons,
        List.foldl_cons, List.foldl_cons, List.foldl_cons]
      dsimp only
      rw [ih]
      have e1 : (if v.1 < a then v.1 else a) = min a v.1 := by
        rw [min_def]
        split <;> split <;> omega
      have e2 : (if v.2.1 < b then v.2.1 else b) = min b v.2.1 := by
        rw [min_def]
        split <;> split <;> omega
      have e3 : (if v.2.2 < c then v.2.2 else c) = min c v.2.2 := by
        rw [min_def]
        split <;> split <;> omega
      rw [e1, e2, e3]
  exact step vs i64MAX i64MAX i64MAX

theorem foldl_min_shift_zero {l : List Int} (hne : l ≠ [])
    (hbound : ∀ x ∈ l, x ≤ i64MAX) :
    List.foldl min i64MAX
      (l.map (fun x => x - List.foldl min i64MAX l)) = 0 := by
  have hMle : ∀ x ∈ l, List.foldl min i64MAX l ≤ x := (foldl_min_le l i64MAX).2
  have hMmem : List.foldl min i64MAX l ∈ l := by
    rcases foldl_min_mem l i64MAX with h1 | h1
    · rcases List.exists_mem_of_ne_nil l hne with ⟨x0, hx0⟩
      have h2 := hMle x0 hx0
      have h3 := hbound x0 hx0
      have h4 : x0 = List.foldl min i64MAX l := by
        have h5 : (i64MAX : Int) = 2 ^ 63 - 1 := rfl
        omega
      rw [← h4]
      exact hx0
    · exact h1
  have h0mem : (0 : Int) ∈ l.map (fun x => x - List.foldl min i64MAX l) :=
    List.mem_map.mpr ⟨_, hMmem, by omega⟩
  have hge : ∀ y ∈ l.map (fun x => x - List.foldl min i64MAX l), 0 ≤ y := by
    intro y hy
    rcases List.mem_map.mp hy with ⟨x, hx, rfl⟩
    have := hMle x hx
    omega
  have hle0 := (foldl_min_le
    (l.map (fun x => x - List.foldl min i64MAX l)) i64MAX).2 0 h0mem
  rcases foldl_min_mem (l.map (fun x => x - List.foldl min i64MAX l)) i64MAX
    with h1 | h1
  · exfalso
    rw [h1] at hle0
    have h5 : (i64MAX : Int) = 2 ^ 63 - 1 := rfl
    omega
  · have := hge _ h1
    omega

theorem checkOpt_ok_iff {α : Type} (field : String) (p : α → Prop)
    [DecidablePred p] (o : Option α) (next : Except String Unit) :
    checkOpt field p o next = .ok () ↔ (∀ v ∈ o, p v) ∧ next = .ok () := by
  cases o with
  | none => simp [checkOpt]
  | some v =>
    unfold checkOpt
    by_cases hp : p v
    · simp [hp]
    · simp [hp]

theorem findIdx?_spec {α : Type} (p : α → Bool) :
    ∀ (l : List α) (s i : Nat), List.findIdx? p l s = some i →
      ∃ k, i = s + k ∧ (∃ x, l[k]? = some x ∧ p x = true) ∧
        ∀ j < k, ∀ y, l[j]? = some y → p y = false := by
  intro l
  induction l with
  | nil => intro s i h; rw [List.findIdx?_nil] at h; cases h
  | cons a rest ih =>
    intro s i h
    rw [List.findIdx?_cons] at h
    by_cases hpa : p a = true
    · rw [if_pos hpa] at h
      cases h
      refine ⟨0, by omega, ⟨a, by simp, hpa⟩, ?_⟩
      intro j hj
      omega
    · rw [if_neg hpa] at h
      rcases ih (s + 1) i h with ⟨k', hk', hx, hprev⟩
      refine ⟨k' + 1, by omega, ?_, ?_⟩
      · rcases hx with ⟨x, hx1, hx2⟩
        exact ⟨x, by simpa using hx1, hx2⟩
      · intro j hj y hy
        cases j with
        | zero =>
          have hya : a = y := by simpa using hy
          rw [← hya]
          simpa using hpa
        | succ j' =>
          exact hprev j' (by omega) y (by simpa using hy)

theorem add_material_mats {self : CityJSON} {jm : MaterialObject}
    {p : CityJSON × Nat} (h : self.add_material jm = some p) :
    ∃ mats', matsOf p.1 = some mats' ∧
      (∀ old, matsOf self = some old → ∃ ext, mats' = old ++ ext) ∧
      ∃ mo, mats'[p.2]? = some mo ∧ mo.name = jm.name ∧
        ∀ j, j < p.2 → ∀ mo', mats'[j]? = some mo' → mo'.name ≠ jm.name := by
  unfold CityJSON.add_material at h
  cases happ : self.appearance with
  | none =>
    rw [happ] at h
    dsimp only at h
    unfold Appearance.add_material at h
    cases hval : jm.validate with
    | error e => rw [hval] at h; cases h
    | ok u =>
      rw [hval] at h
      cases u
      dsimp only at h
      cases h
      refine ⟨[jm], rfl, ?_, jm, by simp, rfl, ?_⟩
      · intro old hold
        unfold matsOf at hold
        rw [happ] at hold
        cases hold
      · intro j hj
        dsimp only at hj
        omega
  | some x =>
    rw [happ] at h
    dsimp only at h
    unfold Appearance.add_material at h
    cases hval : jm.validate with
    | error e => rw [hval] at h; cases h
    | ok u =>
      rw [hval] at h
      cases u
      dsimp only at h
      cases hmx : x.materials with
      | none =>
        rw [hmx] at h
        dsimp only at h
        cases h
        refine ⟨[jm], rfl, ?_, jm, by simp, rfl, ?_⟩
        · intro old hold
          unfold matsOf at hold
          rw [happ] at hold
          have hold2 : x.materials = some old := hold
          rw [hmx] at hold2
          cases hold2
        · intro j hj
          dsimp only at hj
          omega
      | some lst =>
        rw [hmx] at h
        dsimp only at h
        cases hfi : lst.findIdx? (fun e => e.name == jm.name) with
        | some y =>
          rw [hfi] at h
          cases h
          rcases findIdx?_spec _ lst 0 y hfi with ⟨k, hk, ⟨mo, hmo, hpmo⟩, hprev⟩
          have hky : y = k := by omega
          subst hky
          refine ⟨lst, hmx, ?_, mo, hmo, by simpa using hpmo, ?_⟩
          · intro old hold
            unfold matsOf at hold
            rw [happ] at hold
            have hold2 : x.materials = some old := hold
            rw [hmx] at hold2
            cases hold2
            exact ⟨[], by simp⟩
          · intro j hj mo' hmo'
            dsimp only at hj
            have := hprev j hj mo' hmo'
            simpa using this
        | none =>
          rw [hfi] at h
          cases h
          have hall := List.findIdx?_eq_none_iff.mp hfi
          refine ⟨lst ++ [jm], rfl, ?_, jm, ?_, rfl, ?_⟩
          · intro old hold
            unfold matsOf at hold
            rw [happ] at hold
            have hold2 : x.materials = some old := hold
            rw [hmx] at hold2
            cases hold2
            exact ⟨[jm], rfl⟩
          · exact List.getElem?_concat_length lst jm
          · intro j hj mo' hmo'
            dsimp only at hj
            rw [List.getElem?_append_left hj] at hmo'
            obtain ⟨hb, he⟩ := List.getElem?_eq_some.mp hmo'
            have hmem : mo' ∈ lst := he ▸ List.getElem_mem hb
            have := hall mo' hmem
            simpa using this

theorem addMaterialsLoop_table_preserved :
    ∀ (ms : List MaterialObject) (doc : CityJSON) (i : Nat) (tbl : Table)
      (r : CityJSON × Table), addMaterialsLoop doc ms i tbl = some r →
      (∀ p ∈ tbl, p.1 < i) → ∀ {k v : Nat}, Table.get tbl k = some v →
      Table.get r.2 k = some v := by
  intro ms
  induction ms with
  | nil =>
    intro doc i tbl r h _ k v hk
    rw [addMaterialsLoop] at h
    cases h
    exact hk
  | cons m rest ih =>
    intro doc i tbl r h hlt k v hk
    rw [addMaterialsLoop] at h
    rcases Option.bind_eq_some.mp h with ⟨p, hp, hrest⟩
    have hkk : k ≠ i := by
      have hsome : (Table.get tbl k).isSome := by simp [hk]
      rw [Table.get_isSome_iff_mem_keys] at hsome
      rcases List.mem_map.mp hsome with ⟨q, hq, rfl⟩
      exact Nat.ne_of_lt (hlt q hq)
    refine ih p.1 (i + 1) (Table.insert tbl i p.2) r hrest (fun q hq => ?_) ?_
    · rcases Table.mem_insert hq with h1 | rfl
      · exact Nat.lt_succ_of_lt (hlt q h1)
      · exact Nat.lt_succ_self i
    · rw [Table.get_insert_of_ne tbl hkk p.2]
      exact hk

theorem addMaterialsLoop_mats_extend :
    ∀ (ms : List MaterialObject) (doc : CityJSON) (i : Nat) (tbl : Table)
      (r : CityJSON × Table), addMaterialsLoop doc ms i tbl = some r →
      ∀ old, matsOf doc = some old →
      ∃ ext, matsOf r.1 = some (old ++ ext) := by
  intro ms
  induction ms with
  | nil =>
    intro doc i tbl r h old hold
    rw [addMaterialsLoop] at h
    cases h
    exact ⟨[], by simpa using hold⟩
  | cons m rest ih =>
    intro doc i tbl r h old hold
    rw [addMaterialsLoop] at h
    rcases Option.bind_eq_some.mp h with ⟨p, hp, hrest⟩
    rcases add_material_mats hp with ⟨mats1, hm1, hext1, _⟩
    rcases hext1 old hold with ⟨e1, he1⟩
    rcases ih p.1 (i + 1) (Table.insert tbl i p.2) r hrest mats1 hm1 with ⟨e2, he2⟩
    refine ⟨e1 ++ e2, ?_⟩
    rw [he2, he1, List.append_assoc]

theorem addMaterialsLoop_spec :
    ∀ (ms : List MaterialObject) (doc : CityJSON) (i : Nat) (tbl : Table)
      (r : CityJSON × Table), addMaterialsLoop doc ms i tbl = some r →
      (∀ p ∈ tbl, p.1 < i) →
      ∀ k m, ms[k]? = some m →
        ∃ idx mats mo,
          Table.get r.2 (i + k) = some idx ∧
          matsOf r.1 = some mats ∧
          mats[idx]? = some mo ∧ mo.name = m.name ∧
          ∀ j, j < idx → ∀ mo', mats[j]? = some mo' → mo'.name ≠ m.name := by
  intro ms
  induction ms with
  | nil =>
    intro doc i tbl r h hlt k m hk
    simp at hk
  | cons m0 rest ih =>
    intro doc i tbl r h hlt k m hk
    rw [addMaterialsLoop] at h
    rcases Option.bind_eq_some.mp h with ⟨p, hp, hrest⟩
    have hkeys : ∀ q ∈ Table.insert tbl i p.2, q.1 < i + 1 := by
      intro q hq
      rcases Table.mem_insert hq with h1 | rfl
      · exact Nat.lt_succ_of_lt (hlt q h1)
      · exact Nat.lt_succ_self i
    cases k with
    | zero =>
      have hm0 : m = m0 := by simpa using hk.symm
      subst hm0
      rcases add_material_mats hp with ⟨mats1, hm1, _, mo, hmo, hname, hfirst⟩
      rcases addMaterialsLoop_mats_extend rest p.1 (i + 1)
        (Table.insert tbl i p.2) r hrest mats1 hm1 with ⟨ext, hext⟩
      have hidxlt : p.2 < mats1.length := by
        rcases List.getElem?_eq_some.mp hmo with ⟨hlt2, _⟩
        exact hlt2
      have htbl : Table.get r.2 (i + 0) = some p.2 := by
        rw [Nat.add_zero]
        exact addMaterialsLoop_table_preserved rest p.1 (i + 1)
          (Table.insert tbl i p.2) r hrest hkeys
          (Table.get_insert_self tbl i p.2)
      refine ⟨p.2, mats1 ++ ext, mo, htbl, hext, ?_, hname, ?_⟩
      · rw [List.getElem?_append_left hidxlt]
        exact hmo
      · intro j hj mo' hmo'
        rw [List.getElem?_append_left (by omega)] at hmo'
        exact hfirst j hj mo' hmo'
    | succ k' =>
      have hk' : rest[k']? = some m := by simpa using hk
      rcases ih p.1 (i + 1) (Table.insert tbl i p.2) r hrest hkeys k' m hk'
        with ⟨idx, mats, mo, h1, h2, h3, h4, h5⟩
      refine ⟨idx, mats, mo, ?_, h2, h3, h4, h5⟩
      rw [show i + (k' + 1) = (i + 1) + k' by omega]
      exact h1

theorem add_texture_texs {self : CityJSON} {jm : TextureObject}
    {p : CityJSON × Nat} (h : self.add_texture jm = some p) :
    ∃ texs', texsOf p.1 = some texs' ∧
      (∀ old, texsOf self = some old → ∃ ext, texs' = old ++ ext) ∧
      ∃ mo, texs'[p.2]? = some mo ∧ mo.image = jm.image ∧
        ∀ j, j < p.2 → ∀ mo', texs'[j]? = some mo' → mo'.image ≠ jm.image := by
  unfold CityJSON.add_texture at h
  cases happ : self.appearance with
  | none =>
    rw [happ] at h
    dsimp only at h
    unfold Appearance.add_texture at h
    cases hval : jm.validate with
    | error e => rw [hval] at h; cases h
    | ok u =>
      rw [hval] at h
      cases u
      dsimp only at h
      cases h
      refine ⟨[jm], rfl, ?_, jm, by simp, rfl, ?_⟩
      · intro old hold
        unfold texsOf at hold
        rw [happ] at hold
        cases hold
      · intro j hj
        dsimp only at hj
        omega
  | some x =>
    rw [happ] at h
    dsimp only at h
    unfold Appearance.add_texture at h
    cases hval : jm.validate with
    | error e => rw [hval] at h; cases h
    | ok u =>
      rw [hval] at h
      cases u
      dsimp only at h
      cases hmx : x.textures with
      | none =>
        rw [hmx] at h
        dsimp only at h
        cases h
        refine ⟨[jm], rfl, ?_, jm, by simp, rfl, ?_⟩
        · intro old hold
          unfold texsOf at hold
          rw [happ] at hold
          have hold2 : x.textures = some old := hold
          rw [hmx] at hold2
          cases hold2
        · intro j hj
          dsimp only at hj
          omega
      | some lst =>
        rw [hmx] at h
        dsimp only at h
        cases hfi : lst.findIdx? (fun e => e.image == jm.image) with
        | some y =>
          rw [hfi] at h
          cases h
          rcases findIdx?_spec _ lst 0 y hfi with ⟨k, hk, ⟨mo, hmo, hpmo⟩, hprev⟩
          have hky : y = k := by omega
          subst hky
          refine ⟨lst, hmx, ?_, mo, hmo, by simpa using hpmo, ?_⟩
          · intro old hold
            unfold texsOf at hold
            rw [happ] at hold
            have hold2 : x.textures = some old := hold
            rw [hmx] at hold2
            cases hold2
            exact ⟨[], by simp⟩
          · intro j hj mo' hmo'
            dsimp only at hj
            have := hprev j hj mo' hmo'
            simpa using this
        | none =>
          rw [hfi] at h
          cases h
          have hall := List.findIdx?_eq_none_iff.mp hfi
          refine ⟨lst ++ [jm], rfl, ?_, jm, ?_, rfl, ?_⟩
          · intro old hold
            unfold texsOf at hold
            rw [happ] at hold
            have hold2 : x.textures = some old := hold
            rw [hmx] at hold2
            cases hold2
            exact ⟨[jm], rfl⟩
          · exact List.getElem?_concat_length lst jm
          · intro j hj mo' hmo'
            dsimp only at hj
            rw [List.getElem?_append_left hj] at hmo'
            obtain ⟨hb, he⟩ := List.getElem?_eq_some.mp hmo'
            have hmem : mo' ∈ lst := he ▸ List.getElem_mem hb
            have := hall mo' hmem
            simpa using this

theorem addTexturesLoop_table_preserved :
    ∀ (ms : List TextureObject) (doc : CityJSON) (i : Nat) (tbl : Table)
      (r : CityJSON × Table), addTexturesLoop doc ms i tbl = some r →
      (∀ p ∈ tbl, p.1 < i) → ∀ {k v : Nat}, Table.get tbl k = some v →
      Table.get r.2 k = some v := by
  intro ms
  induction ms with
  | nil =>
    intro doc i tbl r h _ k v hk
    rw [addTexturesLoop] at h
    cases h
    exact hk
  | cons m rest ih =>
    intro doc i tbl r h hlt k v hk
    rw [addTexturesLoop] at h
    rcases Option.bind_eq_some.mp h with ⟨p, hp, hrest⟩
    have hkk : k ≠ i := by
      have hsome : (Table.get tbl k).isSome := by simp [hk]
      rw [Table.get_isSome_iff_mem_keys] at hsome
      rcases List.mem_map.mp hsome with ⟨q, hq, rfl⟩
      exact Nat.ne_of_lt (hlt q hq)
    refine ih p.1 (i + 1) (Table.insert tbl i p.2) r hrest (fun q hq => ?_) ?_
    · rcases Table.mem_insert hq with h1 | rfl
      · exact Nat.lt_succ_of_lt (hlt q h1)
      · exact Nat.lt_succ_self i
    · rw [Table.get_insert_of_ne tbl hkk p.2]
      exact hk

theorem addTexturesLoop_texs_extend :
    ∀ (ms : List TextureObject) (doc : CityJSON) (i : Nat) (tbl : Table)
      (r : CityJSON × Table), addTexturesLoop doc ms i tbl = some r →
      ∀ old, texsOf doc = some old →
      ∃ ext, texsOf r.1 = some (old ++ ext) := by
  intro ms
  induction ms with
  | nil =>
    intro doc i tbl r h old hold
    rw [addTexturesLoop] at h
    cases h
    exact ⟨[], by simpa using hold⟩
  | cons m rest ih =>
    intro doc i tbl r h old hold
    rw [addTexturesLoop] at h
    rcases Option.bind_eq_some.mp h with ⟨p, hp, hrest⟩
    rcases add_texture_texs hp with ⟨texs1, hm1, hext1, _⟩
    rcases hext1 old hold with ⟨e1, he1⟩
    rcases ih p.1 (i + 1) (Table.insert tbl i p.2) r hrest texs1 hm1 with ⟨e2, he2⟩
    refine ⟨e1 ++ e2, ?_⟩
    rw [he2, he1, List.append_assoc]

theorem addTexturesLoop_spec :
    ∀ (ms : List TextureObject) (doc : CityJSON) (i : Nat) (tbl : Table)
      (r : CityJSON × Table), addTexturesLoop doc ms i tbl = some r →
      (∀ p ∈ tbl, p.1 < i) →
      ∀ k m, ms[k]? = some m →
        ∃ idx texs mo,
          Table.get r.2 (i + k) = some idx ∧
          texsOf r.1 = some texs ∧
          texs[idx]? = some mo ∧ mo.image = m.image ∧
          ∀ j, j < idx → ∀ mo', texs[j]? = some mo' → mo'.image ≠ m.image := by
  intro ms
  induction ms with
  | nil =>
    intro doc i tbl r h hlt k m hk
    simp at hk
  | cons m0 rest ih =>
    intro doc i tbl r h hlt k m hk
    rw [addTexturesLoop] at h
    rcases Option.bind_eq_some.mp h with ⟨p, hp, hrest⟩
    have hkeys : ∀ q ∈ Table.insert tbl i p.2, q.1 < i + 1 := by
      intro q hq
      rcases Table.mem_insert hq with h1 | rfl
      · exact Nat.lt_succ_of_lt (hlt q h1)
      · exact Nat.lt_succ_self i
    cases k with
    | zero =>
      have hm0 : m = m0 := by simpa using hk.symm
      subst hm0
      rcases add_texture_texs hp with ⟨texs1, hm1, _, mo, hmo, hname, hfirst⟩
      rcases addTexturesLoop_texs_extend rest p.1 (i + 1)
        (Table.insert tbl i p.2) r hrest texs1 hm1 with ⟨ext, hext⟩
      have hidxlt : p.2 < texs1.length := by
        rcases List.getElem?_eq_some.mp hmo with ⟨hlt2, _⟩
        exact hlt2
      have htbl : Table.get r.2 (i + 0) = some p.2 := by
        rw [Nat.add_zero]
        exact addTexturesLoop_table_preserved rest p.1 (i + 1)
          (Table.insert tbl i p.2) r hrest hkeys
          (Table.get_insert_self tbl i p.2)
      refine ⟨p.2, texs1 ++ ext, mo, htbl, hext, ?_, hname, ?_⟩
      · rw [List.getElem?_append_left hidxlt]
        exact hmo
      · intro j hj mo' hmo'
        rw [List.getElem?_append_left (by omega)] at hmo'
        exact hfirst j hj mo' hmo'
    | succ k' =>
      have hk' : rest[k']? = some m := by simpa using hk
      rcases ih p.1 (i + 1) (Table.insert tbl i p.2) r hrest hkeys k' m hk'
        with ⟨idx, texs, mo, h1, h2, h3, h4, h5⟩
      refine ⟨idx, texs, mo, ?_, h2, h3, h4, h5⟩
      rw [show i + (k' + 1) = (i + 1) + k' by omega]
      exact h1

/-! # Claim theorems -/

/-- **C1** (refuted): for the internally consistent document `c1_doc` — which
is its own dedup/renormalization normal form on the observed fields — the
split/merge round trip followed by `remove_duplicate_vertices` and
`update_transform` does not return the document: the merged texture-vertex
(uv) leaf indices are `0 3 4 5` against a stored uv array of length 3 (the
original had leaves `0 0 1 2`), because `add_cjfeature` offsets uv indices by
the feature's own uv count instead of the accumulating document's. -/
theorem C1_split_merge_roundtrip_refuted :
    texValuesOf (c1_doc.remove_duplicate_vertices.update_transform) "a"
      = some [some 0, some 0, some 1, some 2] ∧
    uvCountOf (c1_doc.remove_duplicate_vertices.update_transform) = some 3 ∧
    c1_merged.map (fun d => texValuesOf d "a")
      = some (some [some 0, some 3, some 4, some 5]) ∧
    c1_merged.map uvCountOf = some (some 3) ∧
    c1_merged ≠ some (c1_doc.remove_duplicate_vertices.update_transform) := by
  refine ⟨rfl, rfl, rfl, rfl, ?_⟩
  intro h
  have h1 : c1_merged.map (fun d => texValuesOf d "a")
      = some (texValuesOf (c1_doc.remove_duplicate_vertices.update_transform)
          "a") := by
    rw [h]
    rfl
  have e1 : c1_merged.map (fun d => texValuesOf d "a")
      = some (some [some 0, some 3, some 4, some 5]) := rfl
  have e2 : texValuesOf (c1_doc.remove_duplicate_vertices.update_transform) "a"
      = some [some 0, some 0, some 1, some 2] := rfl
  rw [e1, e2] at h1
  exact absurd h1 (by decide)

/-- **C2**: index validity — every feature split off a document is internally
consistent in its own vertex scope; merging a consistent feature into a
consistent document keeps the document consistent; vertex dedup keeps it
consistent. -/
theorem C2_index_validity :
    (∀ (cj : CityJSON) (i : Nat) (f : CityJSONFeature),
        cj.boundsValid → cj.get_cjfeature i = .feature f → f.boundsValid) ∧
    (∀ (cj : CityJSON) (f : CityJSONFeature) (cj2 : CityJSON),
        cj.boundsValid → f.boundsValid → cj.add_cjfeature f = some cj2 →
        cj2.boundsValid) ∧
    (∀ cj : CityJSON, cj.boundsValid →
        cj.remove_duplicate_vertices.boundsValid) :=
  ⟨fun _ _ _ _ h => get_cjfeature_bounds h,
   fun _ _ _ hd hf h => add_cjfeature_bounds hd hf h,
   fun _ h => (rdv_valid h).1⟩

/-- Witness for C2 at `c2_doc` and `c2_feat`. -/
theorem C2_index_validity_witness :
    c2_doc.boundsValid ∧ c2_feat.boundsValid ∧
    c2_feat_out.boundsValid ∧ c2_merged.boundsValid ∧
    c2_doc.remove_duplicate_vertices.boundsValid :=
  ⟨by decide, by decide,
   C2_index_validity.1 c2_doc 0 c2_feat_out (by decide) rfl,
   C2_index_validity.2.1 c2_doc c2_feat c2_merged (by decide) (by decide) rfl,
   C2_index_validity.2.2 c2_doc (by decide)⟩

/-- **C3** (counterexample to the frozen claim): the remap tables are not
persisted across `add_cjfeature` calls.  Merging `c3_f1` (two materials, names
`a` then `b`) and then `c3_f2` (material reference `1`, no appearance of its
own) renumbers `c3_f2`'s reference with a fresh empty table, yielding `0`;
the merge the spec describes, threading the tables across the stream, yields
`1`. -/
theorem C3_tables_not_persisted :
    (mergeFresh c3_hdr [c3_f1, c3_f2]).map (fun d => matValOf d "o2")
      = some (some (some 0)) ∧
    (mergePersistent c3_hdr [c3_f1, c3_f2]).map (fun p => matValOf p.1 "o2")
      = some (some (some 1)) := ⟨rfl, rfl⟩

/-- **C3** (amended): during one merge the material/texture/texture-vertex
remap tables are fresh per `add_cjfeature` call — the call is exactly the core
body run on empty tables — and cross-feature appearance dedup is achieved
content-wise instead: when a feature's materials (textures) are folded in,
each one is mapped to the first stored material carrying its name (the first
stored texture carrying its image path), appended when none does. -/
theorem C3_fresh_tables_content_dedup :
    (∀ (self : CityJSON) (cjf : CityJSONFeature),
        self.add_cjfeature cjf =
          (addCjfeatureCore self cjf ({} : MergeTables)).map Prod.fst) ∧
    (∀ (doc : CityJSON) (ms : List MaterialObject) (r : CityJSON × Table),
        addMaterialsLoop doc ms 0 [] = some r →
        ∀ k m, ms[k]? = some m →
          ∃ idx mats mo,
            Table.get r.2 k = some idx ∧
            matsOf r.1 = some mats ∧
            mats[idx]? = some mo ∧ mo.name = m.name ∧
            ∀ j, j < idx → ∀ mo2, mats[j]? = some mo2 →
              mo2.name ≠ m.name) ∧
    (∀ (doc : CityJSON) (ts : List TextureObject) (r : CityJSON × Table),
        addTexturesLoop doc ts 0 [] = some r →
        ∀ k t, ts[k]? = some t →
          ∃ idx texs to1,
            Table.get r.2 k = some idx ∧
            texsOf r.1 = some texs ∧
            texs[idx]? = some to1 ∧ to1.image = t.image ∧
            ∀ j, j < idx → ∀ to2, texs[j]? = some to2 →
              to2.image ≠ t.image) := by
  refine ⟨fun _ _ => rfl, fun doc ms r h k m hk => ?_, fun doc ts r h k t hk => ?_⟩
  · have h2 := addMaterialsLoop_spec ms doc 0 [] r h
      (by intro p hp; cases hp) k m hk
    simpa using h2
  · have h2 := addTexturesLoop_spec ts doc 0 [] r h
      (by intro p hp; cases hp) k t hk
    simpa using h2

/-- Witness for the amended C3: adding two materials named `a` (two textures
with image `a.jpg`) maps the second one to the first one's slot, index `0`. -/
theorem C3_fresh_tables_content_dedup_witness :
    c3_hdr.add_cjfeature c3_f1 =
      (addCjfeatureCore c3_hdr c3_f1 ({} : MergeTables)).map Prod.fst ∧
    Table.get c3_loopRes.2 1 = some 0 ∧
    Table.get c3_texLoopRes.2 1 = some 0 := by
  refine ⟨C3_fresh_tables_content_dedup.1 c3_hdr c3_f1, ?_, ?_⟩
  · obtain ⟨idx, mats, mo, h1, h2, h3, _h4, _h5⟩ :=
      C3_fresh_tables_content_dedup.2.1 c3_hdr c3_ms c3_loopRes rfl 1
        { name := "a" } rfl
    have hm : matsOf c3_loopRes.1 = some [{ name := "a" }] := rfl
    rw [hm] at h2
    cases h2
    have hlt : idx < 1 := by
      rcases List.getElem?_eq_some.mp h3 with ⟨hl, _⟩
      simpa using hl
    have hidx : idx = 0 := by omega
    subst hidx
    exact h1
  · obtain ⟨idx, texs, to1, h1, h2, h3, _h4, _h5⟩ :=
      C3_fresh_tables_content_dedup.2.2 c3_hdr c3_ts c3_texLoopRes rfl 1
        { image := "a.jpg" } rfl
    have hm : texsOf c3_texLoopRes.1 = some [{ image := "a.jpg" }] := rfl
    rw [hm] at h2
    cases h2
    have hlt : idx < 1 := by
      rcases List.getElem?_eq_some.mp h3 with ⟨hl, _⟩
      simpa using hl
    have hidx : idx = 0 := by omega
    subst hidx
    exact h1

/-- **C4** (refuted for nullable leaves): the JSON array `[0, null]` is a
well-formed depth-consistent nullable-index array; it parses to
`Indices [Some 0, None]`, but serializing that back through the
`Option<usize>` impl yields `[[0], []]`, not the original array (the impl
wraps each leaf in `Value::Array`). -/
theorem C4_option_usize_roundtrip_bug :
    parse_nested_array optUsizeFromValue c4_input = .Indices [some 0, none] ∧
    nested_array_to_value optUsizeToValue
        (parse_nested_array optUsizeFromValue c4_input)
      = .arr [.arr [.num 0], .arr []] ∧
    Json.arr [.arr [.num 0], .arr []] ≠ c4_input := by
  refine ⟨rfl, rfl, ?_⟩
  intro h
  unfold c4_input at h
  injection h with h1
  injection h1 with h2 _h3
  exact Json.noConfusion h2

/-- **C5**: renumbering visits boundary leaves in document order, keeps a
recorded id on a hit, assigns `table.len()` and records it on a miss; a
recorded id survives any further resolutions, and from an empty table the
assigned ids are exactly `0..k-1` in order of first appearance of the old
ids. -/
theorem C5_renumbering_first_occurrence :
    (∀ (b : Boundaries) (t : Table),
        Boundaries.update_indices_recursively b t =
          (NestedArray.mapLeaves (resolveF (Table.extendList t b.leaves)) b,
           Table.extendList t b.leaves)) ∧
    (∀ (t : Table) (k v : Nat), Table.get t k = some v →
        ∀ l, Table.get (Table.extendList t l) k = some v) ∧
    (∀ b : Boundaries,
        Table.keys (Table.extendList [] b.leaves) = firstSeen b.leaves ∧
        Table.values (Table.extendList [] b.leaves) =
          List.range (Table.extendList ([] : Table) b.leaves).length) := by
  refine ⟨update_indices_char.1, ?_, ?_⟩
  · intro t k v hk l
    exact Table.get_extendList_of_some hk
  · intro b
    constructor
    · rw [Table.keys_extendList_eq]
      rfl
    · exact Table.canonical_extendList Table.canonical_nil b.leaves

/-- Witness for C5 on the leaf list `5 7 5`. -/
theorem C5_renumbering_first_occurrence_witness :
    Boundaries.update_indices_recursively (.Indices [5, 7, 5]) [] =
      (.Indices [0, 1, 0], [(5, 0), (7, 1)]) ∧
    Table.get (Table.extendList [(5, 0), (7, 1)] [9, 5]) 5 = some 0 := by
  constructor
  · rw [C5_renumbering_first_occurrence.1]
    rfl
  · exact C5_renumbering_first_occurrence.2.1 [(5, 0), (7, 1)] 5 0 rfl [9, 5]

/-- **C6**: on a document with vertices (components within `i64`),
`update_transform` subtracts the per-axis minima from every vertex, folds the
removed offset into the translation, preserves every vertex's real-world
coordinates exactly over `ℚ`, and leaves per-axis minimum `0`. -/
theorem C6_update_transform_invariance (cj : CityJSON)
    (hne : cj.vertices ≠ [])
    (hb : ∀ v ∈ cj.vertices, v.1 ≤ i64MAX ∧ v.2.1 ≤ i64MAX ∧ v.2.2 ≤ i64MAX) :
    cj.update_transform.vertices =
      cj.vertices.map (fun v =>
        (v.1 - (minsOf cj.vertices).1,
         v.2.1 - (minsOf cj.vertices).2.1,
         v.2.2 - (minsOf cj.vertices).2.2)) ∧
    cj.update_transform.transform.translate =
      (((minsOf cj.vertices).1 : ℚ) * cj.transform.scale.1
         + cj.transform.translate.1,
       ((minsOf cj.vertices).2.1 : ℚ) * cj.transform.scale.2.1
         + cj.transform.translate.2.1,
       ((minsOf cj.vertices).2.2 : ℚ) * cj.transform.scale.2.2
         + cj.transform.translate.2.2) ∧
    cj.update_transform.vertices.map (realWorld cj.update_transform.transform)
      = cj.vertices.map (realWorld cj.transform) ∧
    minsOf cj.update_transform.vertices = (0, 0, 0) := by
  have hv1 : cj.update_transform.vertices =
      cj.vertices.map (fun v =>
        (v.1 - (minsOf cj.vertices).1,
         v.2.1 - (minsOf cj.vertices).2.1,
         v.2.2 - (minsOf cj.vertices).2.2)) := rfl
  have ht1 : cj.update_transform.transform.scale = cj.transform.scale := rfl
  have ht2 : cj.update_transform.transform.translate =
      (((minsOf cj.vertices).1 : ℚ) * cj.transform.scale.1
         + cj.transform.translate.1,
       ((minsOf cj.vertices).2.1 : ℚ) * cj.transform.scale.2.1
         + cj.transform.translate.2.1,
       ((minsOf cj.vertices).2.2 : ℚ) * cj.transform.scale.2.2
         + cj.transform.translate.2.2) := rfl
  refine ⟨hv1, ht2, ?_, ?_⟩
  · rw [hv1, List.map_map]
    apply List.map_congr_left
    intro v hv
    unfold realWorld
    dsimp only [Function.comp]
    rw [ht1, ht2]
    simp only [Prod.mk.injEq]
    refine ⟨?_, ?_, ?_⟩ <;> (push_cast; ring)
  · rw [hv1, minsOf_eq]
    have hcomp : ∀ (g : Vertex → Int),
        ((cj.vertices.map (fun v =>
          (v.1 - (minsOf cj.vertices).1,
           v.2.1 - (minsOf cj.vertices).2.1,
           v.2.2 - (minsOf cj.vertices).2.2))).map g) =
        cj.vertices.map (fun v => g
          (v.1 - (minsOf cj.vertices).1,
           v.2.1 - (minsOf cj.vertices).2.1,
           v.2.2 - (minsOf cj.vertices).2.2)) := by
      intro g
      rw [List.map_map]
      rfl
    have hm1 : (minsOf cj.vertices).1 =
        List.foldl min i64MAX (cj.vertices.map (fun v => v.1)) := by
      rw [minsOf_eq]
    have hm2 : (minsOf cj.vertices).2.1 =
        List.foldl min i64MAX (cj.vertices.map (fun v => v.2.1)) := by
      rw [minsOf_eq]
    have hm3 : (minsOf cj.vertices).2.2 =
        List.foldl min i64MAX (cj.vertices.map (fun v => v.2.2)) := by
      rw [minsOf_eq]
    simp only [Prod.mk.injEq]
    refine ⟨?_, ?_, ?_⟩
    · rw [hcomp (fun v => v.1)]
      dsimp only
      rw [show (cj.vertices.map (fun v => v.1 - (minsOf cj.vertices).1)) =
          ((cj.vertices.map (fun v => v.1)).map
            (fun x => x - List.foldl min i64MAX
              (cj.vertices.map (fun v => v.1)))) by
        rw [List.map_map]
        apply List.map_congr_left
        intro v hv
        dsimp only [Function.comp]
        rw [hm1]]
      apply foldl_min_shift_zero
      · simpa using hne
      · intro x hx
        rcases List.mem_map.mp hx with ⟨v, hv, rfl⟩
        exact (hb v hv).1
    · rw [hcomp (fun v => v.2.1)]
      dsimp only
      rw [show (cj.vertices.map (fun v => v.2.1 - (minsOf cj.vertices).2.1)) =
          ((cj.vertices.map (fun v => v.2.1)).map
            (fun x => x - List.foldl min i64MAX
              (cj.vertices.map (fun v => v.2.1)))) by
        rw [List.map_map]
        apply List.map_congr_left
        intro v hv
        dsimp only [Function.comp]
        rw [hm2]]
      apply foldl_min_shift_zero
      · simpa using hne
      · intro x hx
        rcases List.mem_map.mp hx with ⟨v, hv, rfl⟩
        exact (hb v hv).2.1
    · rw [hcomp (fun v => v.2.2)]
      dsimp only
      rw [show (cj.vertices.map (fun v => v.2.2 - (minsOf cj.vertices).2.2)) =
          ((cj.vertices.map (fun v => v.2.2)).map
            (fun x => x - List.foldl min i64MAX
              (cj.vertices.map (fun v => v.2.2)))) by
        rw [List.map_map]
        apply List.map_congr_left
        intro v hv
        dsimp only [Function.comp]
        rw [hm3]]
      apply foldl_min_shift_zero
      · simpa using hne
      · intro x hx
        rcases List.mem_map.mp hx with ⟨v, hv, rfl⟩
        exact (hb v hv).2.2

/-- Witness for C6 at `c6_doc`. -/
theorem C6_update_transform_invariance_witness :
    c6_doc.update_transform.vertices.map
        (realWorld c6_doc.update_transform.transform)
      = c6_doc.vertices.map (realWorld c6_doc.transform) ∧
    minsOf c6_doc.update_transform.vertices = (0, 0, 0) := by
  have h := C6_update_transform_invariance c6_doc (by decide) (by decide)
  exact ⟨h.2.2.1, h.2.2.2⟩

/-- **C7**: on an internally consistent document, vertex dedup is idempotent —
the second run returns the same vertex array and city-object map (hence the
same object count). -/
theorem C7_dedup_idempotent (cj : CityJSON) (h : cj.boundsValid) :
    cj.remove_duplicate_vertices.remove_duplicate_vertices.vertices =
      cj.remove_duplicate_vertices.vertices ∧
    cj.remove_duplicate_vertices.remove_duplicate_vertices.city_objects =
      cj.remove_duplicate_vertices.city_objects := by
  rw [rdv_idempotent h]
  exact ⟨rfl, rfl⟩

/-- Witness for C7 at `c7_doc`, a document with one duplicated vertex. -/
theorem C7_dedup_idempotent_witness :
    c7_doc.boundsValid ∧
    (c7_doc.remove_duplicate_vertices.remove_duplicate_vertices.vertices =
      c7_doc.remove_duplicate_vertices.vertices ∧
    c7_doc.remove_duplicate_vertices.remove_duplicate_vertices.city_objects =
      c7_doc.remove_duplicate_vertices.city_objects) :=
  ⟨by decide, C7_dedup_idempotent c7_doc (by decide)⟩

/-- **C8**: `MaterialObject::validate` is `Ok` exactly when every present
checked field lies in `[0, 1]` component-wise; `TextureObject::validate` is
`Ok` exactly when a present border color does; and a violating insert through
`Appearance::add_material` / `add_texture` is the panic (`none`), never a
logged or clamped success. -/
theorem C8_validation_fatal (jm : MaterialObject) (jt : TextureObject)
    (a : Appearance) :
    (jm.validate = .ok () ↔
      (∀ v ∈ jm.ambient_intensity, inUnit v) ∧
      (∀ c ∈ jm.diffuse_color, rgbInUnit c) ∧
      (∀ c ∈ jm.emissive_color, rgbInUnit c) ∧
      (∀ c ∈ jm.specular_color, rgbInUnit c) ∧
      (∀ v ∈ jm.shininess, inUnit v) ∧
      (∀ v ∈ jm.transparency, inUnit v)) ∧
    (jt.validate = .ok () ↔ ∀ c ∈ jt.border_color, rgbaInUnit c) ∧
    ((a.add_material jm).isSome ↔ jm.validate = .ok ()) ∧
    ((a.add_texture jt).isSome ↔ jt.validate = .ok ()) := by
  refine ⟨?_, ?_, ?_, ?_⟩
  · unfold MaterialObject.validate
    rw [checkOpt_ok_iff, checkOpt_ok_iff, checkOpt_ok_iff, checkOpt_ok_iff,
      checkOpt_ok_iff, checkOpt_ok_iff]
    simp [and_assoc]
  · unfold TextureObject.validate
    rw [checkOpt_ok_iff]
    simp
  · unfold Appearance.add_material
    cases hv : jm.validate with
    | error e => simp
    | ok u =>
      cases u
      cases a.materials with
      | none => simp
      | some x =>
        cases hfi : x.findIdx? (fun e => e.name == jm.name) <;> simp [hfi]
  · unfold Appearance.add_texture
    cases hv : jt.validate with
    | error e => simp
    | ok u =>
      cases u
      cases a.textures with
      | none => simp
      | some x =>
        cases hfi : x.findIdx? (fun e => e.image == jt.image) <;> simp [hfi]

/-- **C9**: the `CityObjects` map of a feature split off a document holds
exactly the chosen top-level object's id plus the ids on its direct children
list — one level of descent, so grandchildren are not carried along. -/
theorem C9_one_level_descent (cj : CityJSON) (i : Nat) (f : CityJSONFeature)
    (h : cj.get_cjfeature i = .feature f) :
    ∃ theid co, cj.sorted_ids[i]? = some theid ∧
      CoMap.get cj.city_objects theid = some co ∧
      ∀ k, (CoMap.get f.city_objects k).isSome ↔
        (k = theid ∨ k ∈ co.get_children_keys) := by
  rcases get_cjfeature_feature_inv h with
    ⟨theid, co, comap, tb, verts, hs, hco, hsc, _hsl, hfc, _hfv⟩
  refine ⟨theid, co, hs, hco, fun k => ?_⟩
  rw [hfc]
  rw [splitChildren_keys cj co.get_children_keys _ _ _ hsc k]
  rw [CoMap.get_insert_isSome]
  simp [CoMap.get]

/-- Witness for C9 at `c9_doc`: the feature for `p` carries `p` and its child
`c` but not the grandchild `g`. -/
theorem C9_one_level_descent_witness :
    (CoMap.get c9_feat_out.city_objects "p").isSome = true ∧
    (CoMap.get c9_feat_out.city_objects "c").isSome = true ∧
    (CoMap.get c9_feat_out.city_objects "g").isSome = false := by
  obtain ⟨theid, co, h1, h2, h3⟩ :=
    C9_one_level_descent c9_doc 0 c9_feat_out rfl
  have e1 : c9_doc.sorted_ids[0]? = some "p" := rfl
  rw [e1] at h1
  cases h1
  have e2 : CoMap.get c9_doc.city_objects "p" =
      some { thetype := "Building", children := some ["c"] } := rfl
  rw [e2] at h2
  cases h2
  refine ⟨(h3 "p").mpr (Or.inl rfl), (h3 "c").mpr (Or.inr (by decide)), ?_⟩
  cases hfinal : (CoMap.get c9_feat_out.city_objects "g").isSome with
  | false => rfl
  | true =>
    exfalso
    rcases (h3 "g").mp hfinal with hcase | hcase
    · exact absurd hcase (by decide)
    · exact absurd hcase (by decide)

/-- **C10**: `get_cjfeature i` returns the `Option` miss — not a panic —
exactly when `i` is out of range of `sorted_ids` or the id at position `i` is
absent from the `CityObjects` map (the receiver is an immutable borrow, so
the document is unchanged in every case). -/
theorem C10_get_cjfeature_missing (cj : CityJSON) (i : Nat) :
    cj.get_cjfeature i = .missing ↔
      (cj.sorted_ids[i]? = none ∨
        ∃ theid, cj.sorted_ids[i]? = some theid ∧
          CoMap.get cj.city_objects theid = none) := by
  unfold CityJSON.get_cjfeature
  cases hs : cj.sorted_ids[i]? with
  | none => simp
  | some theid =>
    dsimp only
    cases hco : CoMap.get cj.city_objects theid with
    | none => simp [hco]
    | some co =>
      dsimp only
      constructor
      · intro h
        exfalso
        rw [show (CityJSONFeature.new.add_co theid
            (splitUpdateCo co {}).1).city_objects =
            CoMap.insert [] theid (splitUpdateCo co {}).1 from rfl] at h
        cases hsc : splitChildren cj co.get_children_keys
            (CoMap.insert [] theid (splitUpdateCo co {}).1)
            (splitUpdateCo co {}).2 with
        | none => rw [hsc] at h; cases h
        | some pr =>
          rw [hsc] at h
          dsimp only at h
          cases hsl : sliceByTable pr.2.g_vi_oldnew cj.vertices
              ((0 : Int), (0 : Int), (0 : Int)) with
          | none => rw [hsl] at h; cases h
          | some verts =>
            rw [hsl] at h
            dsimp only at h
            cases happ : cj.appearance with
            | none => rw [happ] at h; cases h
            | some a =>
              rw [happ] at h
              dsimp only at h
              cases hap : sliceAppearance a pr.2.m_oldnew pr.2.t_oldnew
                  pr.2.t_v_oldnew with
              | none => rw [hap] at h; cases h
              | some acjf => rw [hap] at h; cases h
      · rintro (hbad | ⟨t, ht, hg⟩)
        · cases hbad
        · rw [Option.some.injEq] at ht
          cases ht
          rw [hco] at hg
          cases hg

end Cjseq
